import Mathlib

/-!
The command line parser of `loot::clp`.

A shallow embedding of `src/c++/src/clp/parser.cpp` (namespace `loot::clp`) and
theorems about it.

Conventions of the embedding.

* `std::string` is `String`; `substr` works on the character list of the string.
* `argv` is a `List String` and `argc` is its length.  Reading `argv[i]` with
  `argc ≤ i` is undefined in the source (`argv[argc]` is a null pointer from which
  no `std::string` can be built), so every function that reads `argv` returns an
  `Option` and yields `none` on such a read.
* `opt_map` (a `std::map` keyed by the descriptor) is the list of its entries in
  iteration order.  The key order `option::operator<` lives in a header that is
  not part of the sources at hand and is a parameter `lt` of `add_option`.
* A member function that mutates the parser returns the new `opt_map` next to
  its C++ return value.
-/

set_option autoImplicit false

namespace loot.clp

/-! ## Data model -/

/-- Modelled from the spec: the enumeration `value_constraint` (declared in a
header that is not among the sources), the arity constraint of a descriptor.  The
four named values are the enumerators used by `parser.cpp` (NONE, EXACT, UP_TO,
UNLIMITED); `unrecognized tag` stands for any other value the C++ enumeration
object may hold, which the `default:` branch of the switch in `evaluate_values`
handles. -/
inductive value_constraint where
  | no_values
  | exact_num_values
  | up_to_num_values
  | unlimited_num_values
  | unrecognized (tag : Nat)
deriving DecidableEq, Repr

/-- Modelled from the spec: the enumeration `option_type` (declared in a header
that is not among the sources): a descriptor is mandatory or optional.
`parser.cpp` names the enumerator `mandatory_option` only. -/
inductive option_type where
  | mandatory_option
  | optional_option
deriving DecidableEq, Repr

/-- Modelled from the spec: the enumeration `requirement_error` (declared in a
header that is not among the sources), the kinds of errors; the enumerators are
the four that `parser.cpp` uses. -/
inductive requirement_error where
  | option_has_no_names_error
  | not_enough_values_error
  | invalid_value_constraint_error
  | option_not_found_error
deriving DecidableEq, Repr

/-- Modelled from the spec: the descriptor type `option` (declared in
`clp/option.h`, which is not among the sources).  The fields are the ones
`parser.cpp` reads; `num_expected_values` is the `n` of EXACT(n) / UP_TO(n),
a count within the range of `int`. -/
structure option where
  short_name : String
  long_name : String
  description : String
  type : option_type
  constraint : value_constraint
  num_expected_values : Nat
deriving DecidableEq, Repr

/-- Modelled from the spec: `option::is_name_known` (declared in `clp/option.h`,
which is not among the sources): the short or the long name equals `name`. -/
def option.is_name_known (o : option) (name : String) : Bool :=
  decide (name = o.short_name) || decide (name = o.long_name)

/-- Modelled from the spec: the type `error` (declared in a header that is not
among the sources), built in `parser.cpp` as `error(descriptor, kind)`: the
offending descriptor and the kind of error. -/
structure error where
  opt : option
  kind : requirement_error
deriving DecidableEq, Repr

/-- Modelled from the spec: the type `result` (declared in a header that is not
among the sources), the value returned by `parse`; `parser.cpp` uses its member
`errors`, the ordered list of errors. -/
structure result where
  errors : List error
deriving DecidableEq, Repr

/-- Modelled from the spec: one element of `opt_map` (`opt_map::value_type`, declared
in `clp/parser.h`, which is not among the sources), used in `parser.cpp` as a pair
of a descriptor and a pair of a string vector and a flag: `first` is the key, the
descriptor; `values` is `second.first`, the collected values; `found` is
`second.second`. -/
structure entry where
  first : option
  values : List String
  found : Bool
deriving DecidableEq, Repr

/-- The member `options` of the parser, a `std::map`: its entries in iteration
order. -/
abbrev opt_map := List entry

/-! ## Strings -/

/-- The call `arg.substr(pos)`: the characters of `arg` from position `pos` on. -/
def substr_from (arg : String) (pos : Nat) : String :=
  ⟨arg.data.drop pos⟩

/-- The call `arg.substr(0, len)`: the first `len` characters of `arg`. -/
def substr_to (arg : String) (len : Nat) : String :=
  ⟨arg.data.take len⟩

/-- `parser::is_option`: 2 for a leading double dash, 1 for a leading single dash,
0 otherwise. -/
def is_option (arg : String) : Nat :=
  if substr_to arg 2 = "--" then 2
  else if substr_to arg 1 = "-" then 1
  else 0

/-! ## Registry -/

/-- `parser::is_opt_known`: `find_if` over the map with the predicate
`is_name_known(short_name) || is_name_known(long_name)` finds an element. -/
def is_opt_known (options : opt_map) (short_name long_name : String) : Bool :=
  options.any (fun value =>
    value.first.is_name_known short_name || value.first.is_name_known long_name)

/-- The statement `options[opt] = std::make_pair(std::vector<std::string>(), false)`
on a `std::map` ordered by `lt`: walk the entries in key order; an entry whose key
is equivalent to `opt` (neither is less than the other) keeps its key and gets the
fresh state, otherwise a fresh entry for `opt` is put in at its place. -/
def map_assign (lt : option → option → Bool) (opt : option) : opt_map → opt_map
  | [] => [⟨opt, [], false⟩]
  | e :: rest =>
    if lt e.first opt then e :: map_assign lt opt rest
    else if lt opt e.first then ⟨opt, [], false⟩ :: e :: rest
    else ⟨e.first, [], false⟩ :: rest

/-- `parser::add_option` (both overloads): the returned flag and the map afterwards. -/
def add_option (lt : option → option → Bool) (options : opt_map) (opt : option) :
    Bool × opt_map :=
  if is_opt_known options opt.short_name opt.long_name then (false, options)
  else (true, map_assign lt opt options)

/-- The constructor `parser::parser(std::initializer_list<option>)`: `add_option`
for every element in order, starting from the empty map, the returned flags dropped. -/
def parser_of (lt : option → option → Bool) (args : List option) : opt_map :=
  args.foldl (fun options opt => (add_option lt options opt).2) []

/-- `parser::find_option`: the first entry, in iteration order, whose descriptor
knows `name` and whose found flag is set (`none` is the end iterator). -/
def find_option (options : opt_map) (name : String) : Option entry :=
  options.find? (fun item => item.first.is_name_known name && item.found)

/-- `parser::has_option`. -/
def has_option (options : opt_map) (name : String) : Bool :=
  (find_option options name).isSome

/-- `parser::values_from_option`. -/
def values_from_option (options : opt_map) (name : String) : List String :=
  match find_option options name with
  | some iter => iter.values
  | none => []

/-! ## Evaluation -/

/-- The loop of `parser::read`, entered with loop counter `count - todo`: each
round reads `argv[c + 1 + start]`, returns `c` at an option marker and appends
the token to `values` otherwise; it returns `count` when the counter reaches
`count`.  The result is the return value and the vector `values` afterwards. -/
def read_loop (start count : Nat) (argv : List String) :
    Nat → List String → Option (Nat × List String)
  | 0, values => some (count, values)
  | todo + 1, values =>
    let c := count - (todo + 1)
    match argv[c + 1 + start]? with
    | none => none
    | some arg =>
      if is_option arg ≠ 0 then some (c, values)
      else read_loop start count argv todo (values ++ [arg])

/-- `parser::read`. -/
def read (start count : Nat) (argv : List String) (values : List String) :
    Option (Nat × List String) :=
  read_loop start count argv count values

/-- The body of the argument loop of `evaluate_values` once the token at index `c`
has been recognised as the option of `iter`: set the found flag, read the values
and check the constraint. -/
def on_match (argv : List String) (c : Nat) (iter : entry) (res : result) :
    Option (entry × result) :=
  let iter := { iter with found := true }
  if iter.first.constraint = value_constraint.no_values then some (iter, res)
  else
    let count :=
      if iter.first.constraint = value_constraint.unlimited_num_values
      then argv.length - c - 1
      else iter.first.num_expected_values
    match read c count argv iter.values with
    | none => none
    | some (values_read, values) =>
      let iter := { iter with values := values }
      match iter.first.constraint with
      | value_constraint.exact_num_values =>
        if values_read ≠ iter.first.num_expected_values then
          some (iter, ⟨res.errors ++
            [⟨iter.first, requirement_error.not_enough_values_error⟩]⟩)
        else some (iter, res)
      | value_constraint.up_to_num_values | value_constraint.unlimited_num_values =>
        if 0 = values_read then
          some (iter, ⟨res.errors ++
            [⟨iter.first, requirement_error.not_enough_values_error⟩]⟩)
        else some (iter, res)
      | _ =>
        some (iter, ⟨res.errors ++
          [⟨iter.first, requirement_error.invalid_value_constraint_error⟩]⟩)

/-- The argument loop `for (int c = 1; c < argc; c++)` of `evaluate_values` for the
entry `iter`, entered with loop counter `c` and the tokens `argv[c], argv[c+1], ...`
still to visit: tokens that are no option marker or are not a name of the
descriptor are skipped, the first match is handled and ends the loop. -/
def scan_args (argv : List String) :
    Nat → List String → entry → result → Option (entry × result)
  | _, [], iter, res => some (iter, res)
  | c, arg :: rest, iter, res =>
    let start := is_option arg
    if 0 = start then scan_args argv (c + 1) rest iter res
    else if !iter.first.is_name_known (substr_from arg start) then
      scan_args argv (c + 1) rest iter res
    else on_match argv c iter res

/-- One round of the `while` loop of `evaluate_values`: the error for a descriptor
without names, then the argument loop from index 1. -/
def evaluate_entry (argv : List String) (iter : entry) (res : result) :
    Option (entry × result) :=
  let res : result :=
    if iter.first.short_name.isEmpty && iter.first.long_name.isEmpty then
      ⟨res.errors ++ [⟨iter.first, requirement_error.option_has_no_names_error⟩]⟩
    else res
  scan_args argv 1 (argv.drop 1) iter res

/-- The `while` loop of `evaluate_values` over the entries from the iterator on. -/
def evaluate_loop (argv : List String) : opt_map → result → Option (opt_map × result)
  | [], res => some ([], res)
  | iter :: rest, res =>
    match evaluate_entry argv iter res with
    | none => none
    | some (iter', res') =>
      match evaluate_loop argv rest res' with
      | none => none
      | some (rest', res'') => some (iter' :: rest', res'')

/-- `parser::evaluate_values`: the map afterwards and the returned result. -/
def evaluate_values (options : opt_map) (argv : List String) : Option (opt_map × result) :=
  evaluate_loop argv options ⟨[]⟩

/-- The second phase of `parse`: an error for every mandatory descriptor whose
found flag is not set, in iteration order. -/
def check_mandatory (options : opt_map) (r : result) : result :=
  options.foldl (fun r value =>
    if value.first.type = option_type.mandatory_option && !value.found then
      ⟨r.errors ++ [⟨value.first, requirement_error.option_not_found_error⟩]⟩
    else r) r

/-- `parser::parse`: the map afterwards and the returned result. -/
def parse (options : opt_map) (argv : List String) : Option (opt_map × result) :=
  match evaluate_values options argv with
  | none => none
  | some (options', r) => some (options', check_mandatory options' r)

/-! ## Notions used in the statements and proofs -/

/-- Two descriptors have a name in common: a short or long name of one equals a
short or long name of the other. -/
def shares_name (a b : option) : Prop :=
  a.short_name = b.short_name ∨ a.short_name = b.long_name ∨
  a.long_name = b.short_name ∨ a.long_name = b.long_name

instance (a b : option) : Decidable (shares_name a b) := by
  unfold shares_name; infer_instance

/-- The requirement on the key order of `opt_map` under which a descriptor that
passed the `is_opt_known` test is a new key: two descriptors that the order does
not separate have a name in common (the key of the map is the pair of names). -/
def separates_names (lt : option → option → Bool) : Prop :=
  ∀ a b : option, lt a b = false → lt b a = false → shares_name a b

/-- A key order for examples: by short name, descriptors with the same short name
by long name. -/
def name_order (a b : option) : Bool :=
  decide (a.short_name.data < b.short_name.data) ||
    (decide (a.short_name = b.short_name) && decide (a.long_name.data < b.long_name.data))

/-- Appending the errors of a run that started from the empty result to `res`. -/
def push_onto (res : result) (p : entry × result) : entry × result :=
  (p.1, ⟨res.errors ++ p.2.errors⟩)

/-- The token `t` is an option marker that names the descriptor `d`: its marker
length is positive and the text after the marker is the short or the long name. -/
def names_token (d : option) (t : String) : Prop :=
  0 < is_option t ∧
    (substr_from t (is_option t) = d.short_name ∨ substr_from t (is_option t) = d.long_name)

instance (d : option) (t : String) : Decidable (names_token d t) := by
  unfold names_token; infer_instance

/-- Some token after the program name, that is at an index from 1 on, names the
descriptor `d`. -/
def matched (d : option) (argv : List String) : Prop :=
  ∃ t ∈ argv.drop 1, names_token d t

instance (d : option) (argv : List String) : Decidable (matched d argv) := by
  unfold matched; infer_instance

/-- The error pushed at the start of a round of the `while` loop. -/
def names_error (d : option) : List error :=
  if d.short_name = "" ∧ d.long_name = "" then
    [⟨d, requirement_error.option_has_no_names_error⟩]
  else []

/-- A registry on which `parse` has not been called: every value list is empty and
no found flag is set. -/
def fresh (options : opt_map) : Prop :=
  ∀ e ∈ options, e.values = [] ∧ e.found = false

instance (options : opt_map) : Decidable (fresh options) := by
  unfold fresh; infer_instance

/-- The descriptors of the registry, in iteration order. -/
def keys (options : opt_map) : List option :=
  options.map entry.first

/-- No two registered descriptors have a name in common. -/
def names_disjoint (options : opt_map) : Prop :=
  (keys options).Pairwise (fun a b => ¬ shares_name a b)

instance (options : opt_map) : Decidable (names_disjoint options) := by
  unfold names_disjoint; infer_instance

/-- The errors of the second phase of `parse`. -/
def not_found_errors (options : opt_map) : List error :=
  (options.filter (fun value =>
    decide (value.first.type = option_type.mandatory_option) && !value.found)).map
    (fun value => ⟨value.first, requirement_error.option_not_found_error⟩)

/-- Example descriptor: names "h" and "help", no values, optional. -/
def help_option : option :=
  ⟨"h", "help", "", option_type.optional_option, value_constraint.no_values, 0⟩

/-- Example descriptor: names "f" and "file", UNLIMITED, mandatory. -/
def file_option : option :=
  ⟨"f", "file", "", option_type.mandatory_option, value_constraint.unlimited_num_values, 0⟩

/-- Example descriptor: long name "verbose" only, no values, optional. -/
def verbose_option : option :=
  ⟨"", "verbose", "", option_type.optional_option, value_constraint.no_values, 0⟩

/-- Example descriptor: long name "out" only, EXACT(1), mandatory. -/
def out_option : option :=
  ⟨"", "out", "", option_type.mandatory_option, value_constraint.exact_num_values, 1⟩

/-- Example descriptor: short name "f" only, UNLIMITED, mandatory. -/
def f_option : option :=
  ⟨"f", "", "", option_type.mandatory_option, value_constraint.unlimited_num_values, 0⟩

/-- Example descriptor: both names empty, no values, optional. -/
def nameless_option : option :=
  ⟨"", "", "", option_type.optional_option, value_constraint.no_values, 0⟩

/-- Example descriptor: names "o" and "opt", UP_TO(3), optional. -/
def opt_option : option :=
  ⟨"o", "opt", "", option_type.optional_option, value_constraint.up_to_num_values, 3⟩

/-- The longest run of tokens at the front of `rest` that are no option marker. -/
def value_run (rest : List String) : List String :=
  rest.takeWhile (fun t => decide (is_option t = 0))

/-- The number of values `evaluate_values` asks `read` for when the tokens after
the option are `rest`: all of them for UNLIMITED, `num_expected_values` otherwise. -/
def wanted (d : option) (rest : List String) : Nat :=
  if d.constraint = value_constraint.unlimited_num_values then rest.length
  else d.num_expected_values

/-- The errors pushed by the constraint switch of `evaluate_values` for
`values_read` values; a descriptor without values leaves the loop before the
switch and pushes nothing. -/
def value_error (d : option) (values_read : Nat) : List error :=
  match d.constraint with
  | value_constraint.no_values => []
  | value_constraint.exact_num_values =>
    if values_read ≠ d.num_expected_values then
      [⟨d, requirement_error.not_enough_values_error⟩] else []
  | value_constraint.up_to_num_values | value_constraint.unlimited_num_values =>
    if 0 = values_read then [⟨d, requirement_error.not_enough_values_error⟩] else []
  | value_constraint.unrecognized _ =>
    [⟨d, requirement_error.invalid_value_constraint_error⟩]

/-- The read for descriptor `d` with the tokens `rest` after its option runs past
the end of the argument vector: the descriptor takes values, `rest` has no option
marker and fewer tokens than asked for. -/
def read_overruns (d : option) (rest : List String) : Prop :=
  d.constraint ≠ value_constraint.no_values ∧
    rest.length < wanted d rest ∧ ∀ t ∈ rest, is_option t = 0

instance (d : option) (rest : List String) : Decidable (read_overruns d rest) := by
  unfold read_overruns; infer_instance

/-- The first token from index 1 on that names `d` is `t`, with the tokens `pre`
before it (from index 1) and the tokens `post` after it. -/
def first_match (d : option) (argv pre : List String) (t : String) (post : List String) :
    Prop :=
  argv.drop 1 = pre ++ t :: post ∧ (∀ x ∈ pre, ¬ names_token d x) ∧ names_token d t

/-- The run of `parse` reads past the end of the argument vector for descriptor `d`. -/
def overruns (d : option) (argv : List String) : Prop :=
  ∃ pre t post, first_match d argv pre t post ∧ read_overruns d post

/-- The tokens after the first token, from index 1 on, that names `d`; `none` when
no token names it. -/
def tokens_after (d : option) (argv : List String) : Option (List String) :=
  match (argv.drop 1).dropWhile (fun t => !decide (names_token d t)) with
  | [] => none
  | _ :: post => some post

/-- The entry after the round of the first phase for it, for a run that returns. -/
def entry_after (argv : List String) (e : entry) : entry :=
  match tokens_after e.first argv with
  | none => e
  | some post =>
    if e.first.constraint = value_constraint.no_values then { e with found := true }
    else ⟨e.first, e.values ++ (value_run post).take (wanted e.first post), true⟩

/-- The errors of the round of the first phase for descriptor `d`, for a run that
returns. -/
def phase_one_errors (d : option) (argv : List String) : List error :=
  names_error d ++
    match tokens_after d argv with
    | none => []
    | some post => value_error d (min (wanted d post) (value_run post).length)

/-- The values `parse` collects for descriptor `d` on a registry not parsed before,
for a run that returns: nothing without a naming token or for a descriptor without
values, otherwise the marker-free run after the first naming token, cut to the
number of values asked for. -/
def collected (d : option) (argv : List String) : List String :=
  match tokens_after d argv with
  | none => []
  | some post =>
    if d.constraint = value_constraint.no_values then []
    else (value_run post).take (wanted d post)

/-- Every descriptor of the registry carries one of the four arity constraints
NONE, EXACT, UP_TO and UNLIMITED. -/
def closed_constraints (options : opt_map) : Prop :=
  ∀ e ∈ options,
    e.first.constraint = value_constraint.no_values ∨
    e.first.constraint = value_constraint.exact_num_values ∨
    e.first.constraint = value_constraint.up_to_num_values ∨
    e.first.constraint = value_constraint.unlimited_num_values

instance (options : opt_map) : Decidable (closed_constraints options) := by
  unfold closed_constraints; infer_instance

/-- Example descriptor: names "p" and "pair", EXACT(2), optional. -/
def pair_option : option :=
  ⟨"p", "pair", "", option_type.optional_option, value_constraint.exact_num_values, 2⟩

/-- Example descriptor: names "x" and "extra", an arity value outside the
enumeration, optional. -/
def odd_option : option :=
  ⟨"x", "extra", "", option_type.optional_option, value_constraint.unrecognized 7, 0⟩

/-- The test that keeps an error of a second call of `parse` when the first call was
made with the argument vector `argv`: an OPTION_NOT_FOUND error for a descriptor
that a token of `argv` names is dropped. -/
def still_reported (argv : List String) (err : error) : Bool :=
  !(decide (err.kind = requirement_error.option_not_found_error) &&
    decide (matched err.opt argv))

/-- A call of one of the two member functions that change the parser. -/
inductive call where
  | add_option (opt : option)
  | parse (argv : List String)
deriving DecidableEq, Repr

/-- The registry after one call; `none` when the call is a `parse` without a result. -/
def run_call (lt : option → option → Bool) (options : opt_map) : call → Option opt_map
  | call.add_option opt => some (add_option lt options opt).2
  | call.parse argv =>
    match parse options argv with
    | none => none
    | some (options', _) => some options'

/-- The registry after a sequence of calls, started from the registry `options`. -/
def run_calls (lt : option → option → Bool) : opt_map → List call → Option opt_map
  | options, [] => some options
  | options, c :: cs =>
    match run_call lt options c with
    | none => none
    | some options' => run_calls lt options' cs

/-- The string `v` is a value that some `parse` call of `calls` can have collected:
it is no option marker and it is the token at an index from 2 on of the argument
vector of one of the calls. -/
def value_of_calls (calls : List call) (v : String) : Prop :=
  is_option v = 0 ∧
    ∃ argv, call.parse argv ∈ calls ∧ ∃ i, 2 ≤ i ∧ argv[i]? = some v

/-- Example descriptor: names "a" and "alpha", EXACT(1), optional. -/
def alpha_option : option :=
  ⟨"a", "alpha", "", option_type.optional_option, value_constraint.exact_num_values, 1⟩

/-- Example descriptor: names "b" and "beta", no values, mandatory. -/
def beta_option : option :=
  ⟨"b", "beta", "", option_type.mandatory_option, value_constraint.no_values, 0⟩

theorem separates_names_name_order : separates_names name_order := by
  intro a b hab hba
  simp only [name_order, Bool.or_eq_false_iff, decide_eq_false_iff_not, Bool.and_eq_false_iff] at hab hba
  left
  have h1 : ¬ a.short_name < b.short_name := fun h => hab.1 (String.lt_iff_toList_lt.mp h)
  have h2 : ¬ b.short_name < a.short_name := fun h => hba.1 (String.lt_iff_toList_lt.mp h)
  exact le_antisymm (not_lt.mp h2) (not_lt.mp h1)

theorem is_opt_known_iff (options : opt_map) (d : option) :
    is_opt_known options d.short_name d.long_name = true ↔
      ∃ e ∈ options, shares_name e.first d := by
  simp only [is_opt_known, List.any_eq_true, option.is_name_known, Bool.or_eq_true,
    decide_eq_true_eq, shares_name]
  constructor
  · rintro ⟨e, he, h⟩
    exact ⟨e, he, by tauto⟩
  · rintro ⟨e, he, h⟩
    exact ⟨e, he, by tauto⟩

theorem map_assign_new (lt : option → option → Bool) (hlt : separates_names lt)
    (d : option) (options : opt_map)
    (h : ∀ e ∈ options, ¬ shares_name e.first d) :
    ∃ l1 l2, options = l1 ++ l2 ∧ map_assign lt d options = l1 ++ ⟨d, [], false⟩ :: l2 := by
  induction options with
  | nil => exact ⟨[], [], rfl, rfl⟩
  | cons e rest ih =>
    obtain ⟨l1, l2, h1, h2⟩ := ih (fun x hx => h x (List.mem_cons_of_mem _ hx))
    unfold map_assign
    by_cases hed : lt e.first d = true
    · rw [if_pos hed]
      exact ⟨e :: l1, l2, by rw [h1]; rfl, by rw [h2]; rfl⟩
    · rw [if_neg hed]
      by_cases hde : lt d e.first = true
      · rw [if_pos hde]
        exact ⟨[], e :: rest, rfl, rfl⟩
      · exact absurd (hlt e.first d (by simpa using hed) (by simpa using hde))
          (h e (List.mem_cons_self _ _))

theorem shares_name_symm (a b : option) (h : shares_name a b) : shares_name b a := by
  unfold shares_name at h ⊢
  rcases h with h | h | h | h
  · exact Or.inl h.symm
  · exact Or.inr (Or.inr (Or.inl h.symm))
  · exact Or.inr (Or.inl h.symm)
  · exact Or.inr (Or.inr (Or.inr h.symm))

/-- In a registry without common names, two registered descriptors with a common
name are the same descriptor. -/
theorem names_disjoint_eq (options : opt_map) (hd : names_disjoint options)
    (a b : option) (ha : a ∈ keys options) (hb : b ∈ keys options)
    (hs : shares_name a b) : a = b := by
  by_contra hne
  have hsym : Symmetric (fun a b : option => ¬ shares_name a b) :=
    fun x y hxy hyx => hxy (shares_name_symm y x hyx)
  exact (List.Pairwise.forall hsym hd ha hb hne) hs

theorem names_disjoint_nodup (options : opt_map) (hd : names_disjoint options) :
    (keys options).Nodup := by
  unfold names_disjoint at hd
  refine List.Pairwise.imp ?_ hd
  intro a b hab heq
  apply hab
  rw [heq]
  exact Or.inl rfl

/-- The two outcomes of the map assignment: a fresh entry for `d` is put in, or an
entry with an equivalent key gets the fresh state. -/
theorem map_assign_cases (lt : option → option → Bool) (d : option) (options : opt_map) :
    (∃ l1 l2, options = l1 ++ l2 ∧ map_assign lt d options = l1 ++ ⟨d, [], false⟩ :: l2) ∨
    (∃ l1 e l2, options = l1 ++ e :: l2 ∧
      map_assign lt d options = l1 ++ ⟨e.first, [], false⟩ :: l2) := by
  induction options with
  | nil => left; exact ⟨[], [], rfl, rfl⟩
  | cons e rest ih =>
    unfold map_assign
    by_cases hed : lt e.first d = true
    · rw [if_pos hed]
      rcases ih with ⟨l1, l2, h1, h2⟩ | ⟨l1, x, l2, h1, h2⟩
      · left; exact ⟨e :: l1, l2, by rw [h1]; rfl, by rw [h2]; rfl⟩
      · right; exact ⟨e :: l1, x, l2, by rw [h1]; rfl, by rw [h2]; rfl⟩
    · rw [if_neg hed]
      by_cases hde : lt d e.first = true
      · rw [if_pos hde]
        left; exact ⟨[], e :: rest, rfl, rfl⟩
      · rw [if_neg hde]
        right; exact ⟨[], e, rest, rfl, rfl⟩

/-- `add_option` keeps the invariant that no two registered descriptors have a name
in common, whatever the key order is. -/
theorem add_option_names_disjoint (lt : option → option → Bool) (options : opt_map)
    (d : option) (h : names_disjoint options) :
    names_disjoint (add_option lt options d).2 := by
  unfold add_option
  by_cases hk : is_opt_known options d.short_name d.long_name = true
  · rw [if_pos hk]; exact h
  · rw [if_neg hk]
    have hnew : ∀ e ∈ options, ¬ shares_name e.first d := by
      intro e he hs
      exact hk ((is_opt_known_iff options d).mpr ⟨e, he, hs⟩)
    rcases map_assign_cases lt d options with ⟨l1, l2, h1, h2⟩ | ⟨l1, x, l2, h1, h2⟩
    · simp only [h2]
      unfold names_disjoint keys at h ⊢
      rw [h1] at h hnew
      simp only [List.map_append, List.map_cons, List.pairwise_append, List.pairwise_cons,
        List.mem_map, List.mem_cons, forall_exists_index, and_imp,
        forall_apply_eq_imp_iff₂] at h ⊢
      refine ⟨h.1, ⟨?_, h.2.1⟩, ?_⟩
      · intro a ha hs
        exact hnew a (List.mem_append_right _ ha) (shares_name_symm _ _ hs)
      · intro a ha b hb
        rcases hb with rfl | ⟨y, hy, rfl⟩
        · exact hnew a (List.mem_append_left _ ha)
        · exact h.2.2 a ha y hy
    · simp only [h2]
      unfold names_disjoint keys at h ⊢
      rw [h1] at h
      simpa using h

/-- `add_option` keeps a registry that was not parsed fresh. -/
theorem add_option_fresh (lt : option → option → Bool) (options : opt_map)
    (d : option) (h : fresh options) : fresh (add_option lt options d).2 := by
  unfold add_option
  by_cases hk : is_opt_known options d.short_name d.long_name = true
  · rw [if_pos hk]; exact h
  · rw [if_neg hk]
    rcases map_assign_cases lt d options with ⟨l1, l2, h1, h2⟩ | ⟨l1, x, l2, h1, h2⟩
    · simp only [h2]
      rw [h1] at h
      intro e he
      rcases List.mem_append.mp he with he | he
      · exact h e (List.mem_append_left _ he)
      · rcases List.mem_cons.mp he with rfl | he
        · exact ⟨rfl, rfl⟩
        · exact h e (List.mem_append_right _ he)
    · simp only [h2]
      rw [h1] at h
      intro e he
      rcases List.mem_append.mp he with he | he
      · exact h e (List.mem_append_left _ he)
      · rcases List.mem_cons.mp he with rfl | he
        · exact ⟨rfl, rfl⟩
        · exact h e (List.mem_append_right _ (List.mem_cons_of_mem _ he))

/-- The registry built by the constructor: no two descriptors have a name in
common, all value lists are empty and no found flag is set. -/
theorem parser_of_invariant (lt : option → option → Bool) (args : List option) :
    names_disjoint (parser_of lt args) ∧ fresh (parser_of lt args) := by
  have hgen : ∀ (args : List option) (start : opt_map),
      names_disjoint start → fresh start →
      names_disjoint (args.foldl (fun options opt => (add_option lt options opt).2) start) ∧
      fresh (args.foldl (fun options opt => (add_option lt options opt).2) start) := by
    intro args
    induction args with
    | nil => intro start h1 h2; exact ⟨h1, h2⟩
    | cons a as ih =>
      intro start h1 h2
      exact ih _ (add_option_names_disjoint lt start a h1) (add_option_fresh lt start a h2)
  exact hgen args [] (by simp [names_disjoint, keys]) (by simp [fresh])

theorem find_option_spec (options : opt_map) (name : String) :
    (find_option options name = none ∧
      ∀ e ∈ options, ¬ ((name = e.first.short_name ∨ name = e.first.long_name) ∧ e.found = true)) ∨
    ∃ l1 e l2, find_option options name = some e ∧ options = l1 ++ e :: l2 ∧
      (∀ x ∈ l1, ¬ ((name = x.first.short_name ∨ name = x.first.long_name) ∧ x.found = true)) ∧
      (name = e.first.short_name ∨ name = e.first.long_name) ∧ e.found = true := by
  unfold find_option
  cases hf : List.find? (fun item => item.first.is_name_known name && item.found) options with
  | none =>
    left
    refine ⟨rfl, ?_⟩
    rw [List.find?_eq_none] at hf
    intro e he
    have := hf e he
    simpa [option.is_name_known] using this
  | some e =>
    right
    rw [List.find?_eq_some] at hf
    obtain ⟨hp, l1, l2, hsplit, hl1⟩ := hf
    refine ⟨l1, e, l2, rfl, hsplit, ?_, ?_⟩
    · intro x hx
      have := hl1 x hx
      simp only [option.is_name_known, Bool.not_eq_true', Bool.and_eq_false_iff,
        Bool.or_eq_false_iff, decide_eq_false_iff_not] at this
      rintro ⟨hn, hf⟩
      rcases this with ⟨h1, h2⟩ | h3
      · rcases hn with hn | hn
        · exact h1 hn
        · exact h2 hn
      · rw [hf] at h3; exact absurd h3 (by simp)
    · simpa [option.is_name_known] using hp

/-! ## Reading values -/

theorem read_loop_eq (start count : Nat) (argv : List String) :
    ∀ (todo : Nat) (values : List String), todo ≤ count →
      read_loop start count argv todo values =
        if ((argv.drop (start + 1)).drop (count - todo)).length < todo ∧
            ∀ t ∈ (argv.drop (start + 1)).drop (count - todo), is_option t = 0 then none
        else some (count - todo +
            min todo (value_run ((argv.drop (start + 1)).drop (count - todo))).length,
          values ++ (value_run ((argv.drop (start + 1)).drop (count - todo))).take todo) := by
  intro todo
  induction todo with
  | zero =>
    intro values _
    simp [read_loop]
  | succ todo ih =>
    intro values hle
    have hget : argv[count - (todo + 1) + 1 + start]? =
        ((argv.drop (start + 1)).drop (count - (todo + 1))).head? := by
      rw [List.head?_drop, List.getElem?_drop]
      congr 1; omega
    have hnext : (argv.drop (start + 1)).drop (count - todo) =
        (((argv.drop (start + 1)).drop (count - (todo + 1)))).tail := by
      rw [List.tail_drop]
      congr 1; omega
    simp only [read_loop]
    rw [hget]
    have ih' := fun values => ih values (by omega)
    rw [hnext] at ih'
    cases hrest : (argv.drop (start + 1)).drop (count - (todo + 1)) with
    | nil => simp
    | cons t rs =>
      rw [hrest] at ih'
      simp only [List.head?_cons, List.tail_cons] at ih' ⊢
      by_cases ht : is_option t = 0
      · have hcond : (rs.length < todo ∧ ∀ x ∈ rs, is_option x = 0) ↔
            ((t :: rs).length < todo + 1 ∧ ∀ x ∈ t :: rs, is_option x = 0) := by
          simp [ht]
        simp only [ht, ne_eq, not_true_eq_false, if_false]
        rw [ih']
        by_cases hc : rs.length < todo ∧ ∀ x ∈ rs, is_option x = 0
        · rw [if_pos hc, if_pos (hcond.mp hc)]
        · rw [if_neg hc, if_neg (fun h => hc (hcond.mpr h))]
          simp only [value_run, List.takeWhile_cons, ht, decide_True, if_true,
            List.length_cons, List.take_succ_cons, Option.some.injEq, Prod.mk.injEq]
          constructor
          · omega
          · simp
      · have hcond : ¬ ((t :: rs).length < todo + 1 ∧ ∀ x ∈ t :: rs, is_option x = 0) := by
          intro h; exact ht (h.2 t (List.mem_cons_self _ _))
        rw [if_neg hcond]
        simp [ht, value_run]

/-- `parser::read` in closed form: with `rest` the tokens after index `start`, the
call has no result when `rest` has no option marker and fewer than `count` tokens
(the loop reaches `argv[argc]`); otherwise it appends the first `count` tokens of
the marker-free run at the front of `rest` and returns their number. -/
theorem read_eq (start count : Nat) (argv values : List String) :
    read start count argv values =
      if (argv.drop (start + 1)).length < count ∧
          ∀ t ∈ argv.drop (start + 1), is_option t = 0 then none
      else some (min count (value_run (argv.drop (start + 1))).length,
        values ++ (value_run (argv.drop (start + 1))).take count) := by
  unfold read
  rw [read_loop_eq start count argv count values (Nat.le_refl _)]
  simp

/-! ## One round of the first phase -/

theorem on_match_push (argv : List String) (c : Nat) (iter : entry) (res : result) :
    on_match argv c iter res = (on_match argv c iter ⟨[]⟩).map (push_onto res) := by
  unfold on_match
  simp only []
  split
  · simp [push_onto]
  · cases read c _ argv iter.values with
    | none => simp
    | some p =>
      obtain ⟨values_read, values⟩ := p
      simp only []
      split <;> (try split) <;> simp [push_onto]

theorem scan_args_push (argv : List String) (rest : List String) :
    ∀ (c : Nat) (iter : entry) (res : result),
      scan_args argv c rest iter res = (scan_args argv c rest iter ⟨[]⟩).map (push_onto res) := by
  induction rest with
  | nil => intro c iter res; simp [scan_args, push_onto]
  | cons arg rest ih =>
    intro c iter res
    simp only [scan_args]
    split
    · exact ih _ _ _
    · split
      · exact ih _ _ _
      · exact on_match_push _ _ _ _

theorem evaluate_entry_push (argv : List String) (iter : entry) (res : result) :
    evaluate_entry argv iter res = (evaluate_entry argv iter ⟨[]⟩).map (push_onto res) := by
  unfold evaluate_entry
  simp only []
  split
  · rw [scan_args_push argv _ 1 iter ⟨res.errors ++ _⟩, scan_args_push argv _ 1 iter ⟨[] ++ _⟩]
    cases scan_args argv 1 (List.drop 1 argv) iter ⟨[]⟩ with
    | none => rfl
    | some p => simp [push_onto]
  · exact scan_args_push _ _ _ _ _

theorem matched_iff_drop (d : option) (argv : List String) :
    matched d argv ↔ ∃ t ∈ argv.drop 1, names_token d t := Iff.rfl

/-- The tokens after the program name are the tokens at the indices from 1 on. -/
theorem matched_iff_index (d : option) (argv : List String) :
    matched d argv ↔
      ∃ (i : Nat) (t : String), 1 ≤ i ∧ argv[i]? = some t ∧ names_token d t := by
  unfold matched
  symm
  constructor
  · rintro ⟨i, t, hi, hget, ht⟩
    refine ⟨t, ?_, ht⟩
    rw [List.mem_iff_getElem?]
    refine ⟨i - 1, ?_⟩
    rw [List.getElem?_drop]
    have : 1 + (i - 1) = i := by omega
    rw [this]; exact hget
  · rintro ⟨t, hmem, ht⟩
    rw [List.mem_iff_getElem?] at hmem
    obtain ⟨j, hj⟩ := hmem
    rw [List.getElem?_drop] at hj
    exact ⟨1 + j, t, by omega, hj, ht⟩

theorem scan_args_skip (argv : List String) (c : Nat) (arg : String) (rest : List String)
    (iter : entry) (res : result) (h : ¬ names_token iter.first arg) :
    scan_args argv c (arg :: rest) iter res = scan_args argv (c + 1) rest iter res := by
  simp only [scan_args]
  by_cases h0 : 0 = is_option arg
  · rw [if_pos h0]
  · rw [if_neg h0]
    have hk : iter.first.is_name_known (substr_from arg (is_option arg)) = false := by
      rw [← Bool.not_eq_true]
      intro hk
      apply h
      refine ⟨by omega, ?_⟩
      simpa [option.is_name_known] using hk
    simp [hk]

theorem scan_args_hit (argv : List String) (c : Nat) (arg : String) (rest : List String)
    (iter : entry) (res : result) (h : names_token iter.first arg) :
    scan_args argv c (arg :: rest) iter res = on_match argv c iter res := by
  simp only [scan_args]
  have h0 : ¬ 0 = is_option arg := by have := h.1; omega
  rw [if_neg h0]
  have hk : iter.first.is_name_known (substr_from arg (is_option arg)) = true := by
    simpa [option.is_name_known] using h.2
  simp [hk]

theorem scan_args_no_match (argv : List String) (rest : List String) :
    ∀ (c : Nat) (iter : entry) (res : result),
      (∀ t ∈ rest, ¬ names_token iter.first t) →
      scan_args argv c rest iter res = some (iter, res) := by
  induction rest with
  | nil => intro c iter res _; rfl
  | cons arg rest ih =>
    intro c iter res h
    rw [scan_args_skip argv c arg rest iter res (h arg (List.mem_cons_self _ _))]
    exact ih _ _ _ (fun t ht => h t (List.mem_cons_of_mem _ ht))

theorem scan_args_first_match (argv : List String) (pre : List String) :
    ∀ (c : Nat) (t : String) (post : List String) (iter : entry) (res : result),
      (∀ x ∈ pre, ¬ names_token iter.first x) → names_token iter.first t →
      scan_args argv c (pre ++ t :: post) iter res = on_match argv (c + pre.length) iter res := by
  induction pre with
  | nil => intro c t post iter res _ ht; exact scan_args_hit argv c t post iter res ht
  | cons arg pre ih =>
    intro c t post iter res h ht
    rw [List.cons_append, scan_args_skip argv c arg _ iter res (h arg (List.mem_cons_self _ _)),
      ih (c + 1) t post iter res (fun x hx => h x (List.mem_cons_of_mem _ hx)) ht]
    congr 1
    simp only [List.length_cons]; omega

theorem first_match_split (d : option) (rest : List String) :
    (∀ t ∈ rest, ¬ names_token d t) ∨
    ∃ pre t post, rest = pre ++ t :: post ∧ (∀ x ∈ pre, ¬ names_token d x) ∧ names_token d t := by
  induction rest with
  | nil => left; simp
  | cons arg rest ih =>
    by_cases h : names_token d arg
    · right; exact ⟨[], arg, rest, rfl, by simp, h⟩
    · rcases ih with ih | ⟨pre, t, post, h1, h2, h3⟩
      · left
        intro t ht
        rcases List.mem_cons.mp ht with rfl | ht
        · exact h
        · exact ih t ht
      · right
        refine ⟨arg :: pre, t, post, by rw [h1]; rfl, ?_, h3⟩
        intro x hx
        rcases List.mem_cons.mp hx with rfl | hx
        · exact h
        · exact h2 x hx

/-- What a handled match leaves behind: the key is kept, the found flag is set, and
at most one error is reported, a value error for this descriptor; a descriptor
without values keeps its value list and reports nothing. -/
theorem on_match_post (argv : List String) (c : Nat) (iter iter' : entry) (r : result)
    (h : on_match argv c iter ⟨[]⟩ = some (iter', r)) :
    iter'.first = iter.first ∧ iter'.found = true ∧
    (r.errors = [] ∨
      r.errors = [⟨iter.first, requirement_error.not_enough_values_error⟩] ∨
      r.errors = [⟨iter.first, requirement_error.invalid_value_constraint_error⟩]) ∧
    (iter.first.constraint = value_constraint.no_values →
      iter'.values = iter.values ∧ r.errors = []) := by
  unfold on_match at h
  simp only [] at h
  split at h
  · rename_i hc
    simp only [Option.some.injEq, Prod.mk.injEq] at h
    obtain ⟨h1, h2⟩ := h
    subst h1; subst h2
    simp
  · rename_i hc
    cases hr : read c (if iter.first.constraint = value_constraint.unlimited_num_values
        then argv.length - c - 1 else iter.first.num_expected_values) argv iter.values with
    | none => simp [hr] at h
    | some p =>
      obtain ⟨values_read, values⟩ := p
      simp only [hr] at h
      split at h <;> (try split at h) <;>
        (simp only [Option.some.injEq, Prod.mk.injEq] at h
         obtain ⟨h1, h2⟩ := h
         subst h1; subst h2
         simp [hc])

/-- The handling of a match at index `c` in closed form. -/
theorem on_match_eq (argv : List String) (c : Nat) (iter : entry) :
    on_match argv c iter ⟨[]⟩ =
      if iter.first.constraint = value_constraint.no_values then
        some ({ iter with found := true }, ⟨[]⟩)
      else if read_overruns iter.first (argv.drop (c + 1)) then none
      else some (⟨iter.first,
          iter.values ++ (value_run (argv.drop (c + 1))).take
            (wanted iter.first (argv.drop (c + 1))), true⟩,
        ⟨value_error iter.first
          (min (wanted iter.first (argv.drop (c + 1)))
            (value_run (argv.drop (c + 1))).length)⟩) := by
  have hlen : argv.length - c - 1 = (argv.drop (c + 1)).length := by
    rw [List.length_drop]; omega
  unfold on_match
  simp only []
  by_cases hnone : iter.first.constraint = value_constraint.no_values
  · rw [if_pos hnone, if_pos hnone]
  · rw [if_neg hnone, if_neg hnone, read_eq, hlen]
    have hw : (if iter.first.constraint = value_constraint.unlimited_num_values then
        (argv.drop (c + 1)).length else iter.first.num_expected_values) =
        wanted iter.first (argv.drop (c + 1)) := rfl
    rw [hw]
    by_cases hover : (argv.drop (c + 1)).length < wanted iter.first (argv.drop (c + 1)) ∧
        ∀ t ∈ argv.drop (c + 1), is_option t = 0
    · rw [if_pos hover, if_pos ⟨hnone, hover⟩]
    · rw [if_neg hover, if_neg (fun h => hover h.2)]
      simp only [value_error]
      cases hcon : iter.first.constraint with
      | no_values => exact absurd hcon hnone
      | exact_num_values => simp only []; split <;> rfl
      | up_to_num_values => simp only []; split <;> rfl
      | unlimited_num_values => simp only []; split <;> rfl
      | unrecognized tag => rfl

theorem evaluate_entry_eq (argv : List String) (iter : entry) :
    evaluate_entry argv iter ⟨[]⟩ =
      (scan_args argv 1 (argv.drop 1) iter ⟨[]⟩).map (push_onto ⟨names_error iter.first⟩) := by
  unfold evaluate_entry names_error
  simp only [List.nil_append]
  rw [scan_args_push]
  by_cases h : iter.first.short_name = "" ∧ iter.first.long_name = ""
  · rw [if_pos h]
    have : (iter.first.short_name.isEmpty && iter.first.long_name.isEmpty) = true := by
      simpa [String.isEmpty_iff] using h
    rw [if_pos this]
  · rw [if_neg h]
    have : ¬ ((iter.first.short_name.isEmpty && iter.first.long_name.isEmpty) = true) := by
      simpa [String.isEmpty_iff] using h
    rw [if_neg this]

/-- One round of the `while` loop, started from the empty result: the key is kept;
the found flag is set exactly when it was set before or a token from index 1 on
names the descriptor; the errors are the error for a descriptor without names
followed by at most one value error for this descriptor; without a match the entry
is as before, and a descriptor without values keeps its values and has no value
error. -/
theorem evaluate_entry_post (argv : List String) (iter iter' : entry) (errs : List error)
    (h : evaluate_entry argv iter ⟨[]⟩ = some (iter', ⟨errs⟩)) :
    iter'.first = iter.first ∧
    (iter'.found = true ↔ iter.found = true ∨ matched iter.first argv) ∧
    ∃ ve, errs = names_error iter.first ++ ve ∧
      (ve = [] ∨ ve = [⟨iter.first, requirement_error.not_enough_values_error⟩] ∨
        ve = [⟨iter.first, requirement_error.invalid_value_constraint_error⟩]) ∧
      (¬ matched iter.first argv → ve = [] ∧ iter' = iter) ∧
      (iter.first.constraint = value_constraint.no_values →
        ve = [] ∧ iter'.values = iter.values) := by
  rw [evaluate_entry_eq] at h
  rcases first_match_split iter.first (argv.drop 1) with hno | ⟨pre, t, post, hsplit, hpre, ht⟩
  · have hm : ¬ matched iter.first argv := by
      rw [matched_iff_drop]; rintro ⟨t, ht, hn⟩; exact hno t ht hn
    rw [scan_args_no_match argv _ 1 iter ⟨[]⟩ hno] at h
    simp only [Option.map_some', push_onto, Option.some.injEq, Prod.mk.injEq,
      result.mk.injEq, List.append_nil] at h
    obtain ⟨h1, h2⟩ := h
    subst h1
    refine ⟨rfl, ?_, [], by simp [← h2], Or.inl rfl, fun _ => ⟨rfl, rfl⟩, fun _ => ⟨rfl, rfl⟩⟩
    constructor
    · intro hf; exact Or.inl hf
    · rintro (hf | hf)
      · exact hf
      · exact absurd hf hm
  · have hm : matched iter.first argv := by
      rw [matched_iff_drop]; exact ⟨t, by rw [hsplit]; simp, ht⟩
    rw [hsplit, scan_args_first_match argv pre 1 t post iter ⟨[]⟩ hpre ht] at h
    cases hom : on_match argv (1 + pre.length) iter ⟨[]⟩ with
    | none => simp [hom] at h
    | some p =>
      obtain ⟨it, r⟩ := p
      simp only [hom, Option.map_some', push_onto, Option.some.injEq, Prod.mk.injEq,
        result.mk.injEq] at h
      obtain ⟨h1, h2⟩ := h
      subst h1
      obtain ⟨p1, p2, p3, p4⟩ := on_match_post argv _ iter it r hom
      refine ⟨p1, ?_, r.errors, h2.symm, p3, fun hn => absurd hm hn, fun hc => ?_⟩
      · constructor
        · intro _; exact Or.inr hm
        · intro _; exact p2
      · exact ⟨(p4 hc).2, (p4 hc).1⟩

/-- The errors of one round are for the descriptor of the round and none of them is
an OPTION_NOT_FOUND error; an OPTION_HAS_NO_NAMES error is there exactly when
both names are empty, and then once. -/
theorem evaluate_entry_kinds (argv : List String) (iter iter' : entry) (errs : List error)
    (h : evaluate_entry argv iter ⟨[]⟩ = some (iter', ⟨errs⟩)) :
    (∀ err ∈ errs, err.opt = iter.first ∧
      err.kind ≠ requirement_error.option_not_found_error) ∧
    errs.count ⟨iter.first, requirement_error.option_has_no_names_error⟩ =
      (if iter.first.short_name = "" ∧ iter.first.long_name = "" then 1 else 0) := by
  obtain ⟨_, _, ve, hve, hcases, _, _⟩ := evaluate_entry_post argv iter iter' errs h
  subst hve
  constructor
  · intro err herr
    rw [List.mem_append] at herr
    rcases herr with herr | herr
    · unfold names_error at herr
      split at herr
      · rw [List.mem_singleton] at herr; subst herr; exact ⟨rfl, by simp⟩
      · exact absurd herr (List.not_mem_nil _)
    · rcases hcases with hc | hc | hc
      · rw [hc] at herr; exact absurd herr (List.not_mem_nil _)
      · rw [hc, List.mem_singleton] at herr; subst herr; exact ⟨rfl, by simp⟩
      · rw [hc, List.mem_singleton] at herr; subst herr; exact ⟨rfl, by simp⟩
  · rw [List.count_append]
    have hve0 : ve.count ⟨iter.first, requirement_error.option_has_no_names_error⟩ = 0 := by
      rcases hcases with hc | hc | hc <;> rw [hc] <;> simp
    rw [hve0, Nat.add_zero]
    unfold names_error
    split <;> simp

theorem first_match_unique (d : option) (argv pre pre' : List String) (t t' : String)
    (post post' : List String) (h : first_match d argv pre t post)
    (h' : first_match d argv pre' t' post') : pre = pre' ∧ t = t' ∧ post = post' := by
  obtain ⟨h1, h2, h3⟩ := h
  obtain ⟨h1', h2', h3'⟩ := h'
  rw [h1] at h1'
  clear h1
  induction pre generalizing pre' with
  | nil =>
    cases pre' with
    | nil =>
      simp only [List.nil_append, List.cons.injEq] at h1'
      exact ⟨rfl, h1'.1, h1'.2⟩
    | cons x xs =>
      simp only [List.nil_append, List.cons_append, List.cons.injEq] at h1'
      exact absurd (h1'.1 ▸ h3) (h2' x (List.mem_cons_self _ _))
  | cons a as ih =>
    cases pre' with
    | nil =>
      simp only [List.nil_append, List.cons_append, List.cons.injEq] at h1'
      exact absurd (h1'.1 ▸ h3') (h2 a (List.mem_cons_self _ _))
    | cons x xs =>
      simp only [List.cons_append, List.cons.injEq] at h1'
      obtain ⟨r1, r2, r3⟩ := ih xs (fun y hy => h2 y (List.mem_cons_of_mem _ hy)) h1'.2
        (fun y hy => h2' y (List.mem_cons_of_mem _ hy))
      exact ⟨by rw [h1'.1, r1], r2, r3⟩

theorem matched_of_first_match (d : option) (argv pre : List String) (t : String)
    (post : List String) (h : first_match d argv pre t post) : matched d argv := by
  rw [matched_iff_drop]
  exact ⟨t, by rw [h.1]; simp, h.2.2⟩

theorem first_match_of_matched (d : option) (argv : List String) (h : matched d argv) :
    ∃ pre t post, first_match d argv pre t post := by
  rw [matched_iff_drop] at h
  rcases first_match_split d (argv.drop 1) with hno | ⟨pre, t, post, h1, h2, h3⟩
  · obtain ⟨t, ht, hn⟩ := h
    exact absurd hn (hno t ht)
  · exact ⟨pre, t, post, h1, h2, h3⟩

/-- One round of the `while` loop for a descriptor that no token names. -/
theorem evaluate_entry_unmatched (argv : List String) (iter : entry)
    (h : ¬ matched iter.first argv) :
    evaluate_entry argv iter ⟨[]⟩ = some (iter, ⟨names_error iter.first⟩) := by
  have hno : ∀ t ∈ argv.drop 1, ¬ names_token iter.first t := by
    intro t ht hn
    exact h ((matched_iff_drop _ _).mpr ⟨t, ht, hn⟩)
  rw [evaluate_entry_eq, scan_args_no_match argv _ 1 iter ⟨[]⟩ hno]
  simp [push_onto]

/-- One round of the `while` loop for a descriptor whose first naming token is
followed by the tokens `post`. -/
theorem evaluate_entry_matched (argv : List String) (iter : entry) (pre : List String)
    (t : String) (post : List String) (h : first_match iter.first argv pre t post) :
    evaluate_entry argv iter ⟨[]⟩ =
      if iter.first.constraint = value_constraint.no_values then
        some ({ iter with found := true }, ⟨names_error iter.first⟩)
      else if read_overruns iter.first post then none
      else some (⟨iter.first,
          iter.values ++ (value_run post).take (wanted iter.first post), true⟩,
        ⟨names_error iter.first ++ value_error iter.first
          (min (wanted iter.first post) (value_run post).length)⟩) := by
  obtain ⟨h1, h2, h3⟩ := h
  have hpost : argv.drop (1 + pre.length + 1) = post := by
    have : argv.drop (1 + pre.length + 1) = (argv.drop 1).drop (pre.length + 1) := by
      rw [List.drop_drop, Nat.add_assoc]
    rw [this, h1, List.drop_append_eq_append_drop]
    simp
  rw [evaluate_entry_eq, h1, scan_args_first_match argv pre 1 t post iter ⟨[]⟩ h2 h3,
    on_match_eq, hpost]
  split
  · simp [push_onto]
  · split
    · rfl
    · simp only [Option.map_some', push_onto]

theorem evaluate_entry_eq_none_iff (argv : List String) (iter : entry) :
    evaluate_entry argv iter ⟨[]⟩ = none ↔ overruns iter.first argv := by
  constructor
  · intro h
    by_cases hm : matched iter.first argv
    · obtain ⟨pre, t, post, hfm⟩ := first_match_of_matched _ _ hm
      rw [evaluate_entry_matched argv iter pre t post hfm] at h
      refine ⟨pre, t, post, hfm, ?_⟩
      by_contra hover
      by_cases hcn : iter.first.constraint = value_constraint.no_values
      · rw [if_pos hcn] at h
        exact absurd h (by simp)
      · rw [if_neg hcn, if_neg hover] at h
        exact absurd h (by simp)
    · rw [evaluate_entry_unmatched argv iter hm] at h
      exact absurd h (by simp)
  · rintro ⟨pre, t, post, hfm, hover⟩
    rw [evaluate_entry_matched argv iter pre t post hfm, if_neg hover.1, if_pos hover]

theorem tokens_after_of_first_match (d : option) (argv pre : List String) (t : String)
    (post : List String) (h : first_match d argv pre t post) :
    tokens_after d argv = some post := by
  obtain ⟨h1, h2, h3⟩ := h
  unfold tokens_after
  rw [h1]
  have hdrop : ∀ (l : List String), (∀ x ∈ l, ¬ names_token d x) →
      (l ++ t :: post).dropWhile (fun t => !decide (names_token d t)) = t :: post := by
    intro l
    induction l with
    | nil => intro _; simp [List.dropWhile, h3]
    | cons a as ih =>
      intro hl
      have ha : ¬ names_token d a := hl a (List.mem_cons_self _ _)
      simp only [List.cons_append, List.dropWhile_cons, ha, decide_False, Bool.not_false,
        if_true]
      exact ih (fun x hx => hl x (List.mem_cons_of_mem _ hx))
  rw [hdrop pre h2]

theorem tokens_after_of_not_matched (d : option) (argv : List String)
    (h : ¬ matched d argv) : tokens_after d argv = none := by
  rw [matched_iff_drop] at h
  unfold tokens_after
  have hall : (argv.drop 1).dropWhile (fun t => !decide (names_token d t)) = [] := by
    rw [List.dropWhile_eq_nil_iff]
    intro x hx
    have : ¬ names_token d x := fun hn => h ⟨x, hx, hn⟩
    simp [this]
  rw [hall]

/-- One round of the first phase in closed form, when the read stays inside the
argument vector. -/
theorem evaluate_entry_closed (argv : List String) (e : entry)
    (h : ¬ overruns e.first argv) :
    evaluate_entry argv e ⟨[]⟩ =
      some (entry_after argv e, ⟨phase_one_errors e.first argv⟩) := by
  by_cases hm : matched e.first argv
  · obtain ⟨pre, t, post, hfm⟩ := first_match_of_matched _ _ hm
    have hover : ¬ read_overruns e.first post := fun ho => h ⟨pre, t, post, hfm, ho⟩
    rw [evaluate_entry_matched argv e pre t post hfm]
    unfold entry_after phase_one_errors
    rw [tokens_after_of_first_match _ _ _ _ _ hfm]
    by_cases hc : e.first.constraint = value_constraint.no_values
    · simp [hc, value_error]
    · rw [if_neg hc, if_neg hover]
      simp [hc]
  · rw [evaluate_entry_unmatched argv e hm]
    unfold entry_after phase_one_errors
    rw [tokens_after_of_not_matched _ _ hm]
    simp

theorem value_error_opt (d : option) (k : Nat) : ∀ err ∈ value_error d k,
    err.opt = d ∧ (err.kind = requirement_error.not_enough_values_error ∨
      err.kind = requirement_error.invalid_value_constraint_error) := by
  intro err herr
  unfold value_error at herr
  split at herr <;> (try split at herr) <;>
    first
    | exact absurd herr (List.not_mem_nil _)
    | (rw [List.mem_singleton] at herr; subst herr; simp)

theorem phase_one_errors_opt (d : option) (argv : List String) :
    ∀ err ∈ phase_one_errors d argv, err.opt = d := by
  intro err herr
  unfold phase_one_errors at herr
  rw [List.mem_append] at herr
  rcases herr with herr | herr
  · unfold names_error at herr
    split at herr
    · rw [List.mem_singleton] at herr; subst herr; rfl
    · exact absurd herr (List.not_mem_nil _)
  · split at herr
    · exact absurd herr (List.not_mem_nil _)
    · exact (value_error_opt d _ err herr).1

/-! ## The two phases of parse -/

/-- The rounds of the `while` loop: every entry is evaluated on its own, and the
errors of the rounds are appended in iteration order. -/
theorem evaluate_loop_steps (argv : List String) :
    ∀ (options : opt_map) (res : result) (options' : opt_map) (res' : result),
      evaluate_loop argv options res = some (options', res') →
      ∃ steps : List (entry × entry × List error),
        options = steps.map (fun s => s.1) ∧
        options' = steps.map (fun s => s.2.1) ∧
        res'.errors = res.errors ++ (steps.map (fun s => s.2.2)).flatten ∧
        ∀ s ∈ steps, evaluate_entry argv s.1 ⟨[]⟩ = some (s.2.1, ⟨s.2.2⟩) := by
  intro options
  induction options with
  | nil =>
    intro res options' res' h
    simp only [evaluate_loop, Option.some.injEq, Prod.mk.injEq] at h
    exact ⟨[], by simp [← h.1, ← h.2]⟩
  | cons iter rest ih =>
    intro res options' res' h
    simp only [evaluate_loop] at h
    rw [evaluate_entry_push] at h
    cases h0 : evaluate_entry argv iter ⟨[]⟩ with
    | none => simp [h0] at h
    | some p =>
      obtain ⟨iter', r0⟩ := p
      simp only [h0, Option.map_some', push_onto] at h
      cases h1 : evaluate_loop argv rest ⟨res.errors ++ r0.errors⟩ with
      | none => simp [h1] at h
      | some q =>
        obtain ⟨rest', res''⟩ := q
        simp only [h1, Option.some.injEq, Prod.mk.injEq] at h
        obtain ⟨steps, hs1, hs2, hs3, hs4⟩ := ih _ _ _ h1
        refine ⟨(iter, iter', r0.errors) :: steps, ?_, ?_, ?_, ?_⟩
        · simp [hs1]
        · simp [← h.1, hs2]
        · simp [← h.2, hs3]
        · intro s hs
          rcases List.mem_cons.mp hs with rfl | hs
          · exact h0
          · exact hs4 s hs

theorem evaluate_loop_eq_none_iff (argv : List String) :
    ∀ (options : opt_map) (res : result),
      evaluate_loop argv options res = none ↔ ∃ e ∈ options, overruns e.first argv := by
  intro options
  induction options with
  | nil => intro res; simp [evaluate_loop]
  | cons iter rest ih =>
    intro res
    simp only [evaluate_loop]
    rw [evaluate_entry_push]
    cases h0 : evaluate_entry argv iter ⟨[]⟩ with
    | none =>
      simp only [Option.map_none', true_iff]
      exact ⟨iter, List.mem_cons_self _ _, (evaluate_entry_eq_none_iff argv iter).mp h0⟩
    | some p =>
      have hnot : ¬ overruns iter.first argv := by
        intro hov
        rw [(evaluate_entry_eq_none_iff argv iter).mpr hov] at h0
        exact absurd h0 (by simp)
      simp only [Option.map_some']
      cases h1 : evaluate_loop argv rest (push_onto res p).2 with
      | none =>
        have hex := (ih _).mp h1
        simp only [true_iff]
        obtain ⟨e, he, hov⟩ := hex
        exact ⟨e, List.mem_cons_of_mem _ he, hov⟩
      | some q =>
        have hnone : ¬ ∃ e ∈ rest, overruns e.first argv := by
          intro hex
          rw [(ih _).mpr hex] at h1
          exact absurd h1 (by simp)
        constructor
        · intro hcon; exact absurd hcon (by simp)
        · rintro ⟨e, he, hov⟩
          rcases List.mem_cons.mp he with rfl | he
          · exact absurd hov hnot
          · exact absurd ⟨e, he, hov⟩ hnone

theorem evaluate_loop_closed (argv : List String) :
    ∀ (options : opt_map) (res : result), (∀ e ∈ options, ¬ overruns e.first argv) →
      evaluate_loop argv options res =
        some (options.map (entry_after argv),
          ⟨res.errors ++ (options.map (fun e => phase_one_errors e.first argv)).flatten⟩) := by
  intro options
  induction options with
  | nil => intro res _; simp [evaluate_loop]
  | cons e rest ih =>
    intro res h
    simp only [evaluate_loop]
    rw [evaluate_entry_push, evaluate_entry_closed argv e (h e (List.mem_cons_self _ _))]
    simp only [Option.map_some', push_onto]
    rw [ih _ (fun x hx => h x (List.mem_cons_of_mem _ hx))]
    simp

theorem check_mandatory_errors (options : opt_map) :
    ∀ r : result, (check_mandatory options r).errors = r.errors ++ not_found_errors options := by
  induction options with
  | nil => intro r; simp [check_mandatory, not_found_errors]
  | cons v rest ih =>
    intro r
    have hstep : check_mandatory (v :: rest) r =
        check_mandatory rest
          (if (decide (v.first.type = option_type.mandatory_option) && !v.found) = true then
            ⟨r.errors ++ [⟨v.first, requirement_error.option_not_found_error⟩]⟩ else r) := by
      simp [check_mandatory]
    rw [hstep, ih]
    by_cases hv : (decide (v.first.type = option_type.mandatory_option) && !v.found) = true
    · rw [if_pos hv]
      simp only [not_found_errors, List.filter_cons, hv, if_true, List.map_cons,
        List.append_assoc, List.singleton_append]
    · rw [if_neg hv]
      simp only [not_found_errors, List.filter_cons, hv, if_false]
      rfl

/-- A run of `parse` that returns: the rounds of the first phase, one for every
entry, and the errors of both phases in order. -/
theorem parse_steps (options : opt_map) (argv : List String) (options' : opt_map)
    (res : result) (h : parse options argv = some (options', res)) :
    ∃ steps : List (entry × entry × List error),
      options = steps.map (fun s => s.1) ∧
      options' = steps.map (fun s => s.2.1) ∧
      res.errors = (steps.map (fun s => s.2.2)).flatten ++ not_found_errors options' ∧
      ∀ s ∈ steps, evaluate_entry argv s.1 ⟨[]⟩ = some (s.2.1, ⟨s.2.2⟩) := by
  unfold parse evaluate_values at h
  cases h1 : evaluate_loop argv options ⟨[]⟩ with
  | none => simp [h1] at h
  | some p =>
    obtain ⟨o, r⟩ := p
    simp only [h1, Option.some.injEq, Prod.mk.injEq] at h
    obtain ⟨ho, hr⟩ := h
    subst ho
    obtain ⟨steps, s1, s2, s3, s4⟩ := evaluate_loop_steps argv options ⟨[]⟩ o r h1
    refine ⟨steps, s1, s2, ?_, s4⟩
    rw [← hr, check_mandatory_errors, s3]
    simp

theorem parse_keys (options : opt_map) (argv : List String) (options' : opt_map)
    (res : result) (h : parse options argv = some (options', res)) :
    keys options' = keys options := by
  obtain ⟨steps, s1, s2, _, s4⟩ := parse_steps options argv options' res h
  subst s1; subst s2
  simp only [keys, List.map_map]
  apply List.map_congr_left
  intro s hs
  have hpost := evaluate_entry_post argv s.1 s.2.1 s.2.2 (s4 s hs)
  exact hpost.1

/-- Every entry after a run of `parse` that returns comes from an entry before the
run by one round of the first phase. -/
theorem parse_entry_origin (options : opt_map) (argv : List String) (options' : opt_map)
    (res : result) (h : parse options argv = some (options', res)) :
    ∀ e' ∈ options', ∃ e ∈ options, ∃ errs,
      evaluate_entry argv e ⟨[]⟩ = some (e', ⟨errs⟩) := by
  obtain ⟨steps, s1, s2, _, s4⟩ := parse_steps options argv options' res h
  subst s1; subst s2
  intro e' he'
  obtain ⟨s, hs, rfl⟩ := List.mem_map.mp he'
  exact ⟨s.1, List.mem_map.mpr ⟨s, hs, rfl⟩, s.2.2, s4 s hs⟩

/-- The found flags after a run of `parse` on a fresh registry. -/
theorem parse_found (options : opt_map) (argv : List String) (options' : opt_map)
    (res : result) (hfresh : fresh options) (h : parse options argv = some (options', res)) :
    ∀ e' ∈ options', (e'.found = true ↔ matched e'.first argv) := by
  intro e' he'
  obtain ⟨e, he, errs, hrun⟩ := parse_entry_origin options argv options' res h e' he'
  obtain ⟨p1, p2, _⟩ := evaluate_entry_post argv e e' errs hrun
  rw [p2, p1, (hfresh e he).2]
  simp

/-- Every error of a run of `parse` that returns is for a registered descriptor and
is of one of four sorts: the descriptor has no names; a value error for a matched
descriptor that takes values (two sorts); or the descriptor is mandatory and an
entry for it has its found flag unset after the run. -/
theorem parse_error_cases (options : opt_map) (argv : List String) (options' : opt_map)
    (res : result) (h : parse options argv = some (options', res)) :
    ∀ err ∈ res.errors, err.opt ∈ keys options ∧
      ((err.kind = requirement_error.option_has_no_names_error ∧
          err.opt.short_name = "" ∧ err.opt.long_name = "") ∨
       (err.kind = requirement_error.not_enough_values_error ∧ matched err.opt argv ∧
          err.opt.constraint ≠ value_constraint.no_values) ∨
       (err.kind = requirement_error.invalid_value_constraint_error ∧ matched err.opt argv ∧
          err.opt.constraint ≠ value_constraint.no_values) ∨
       (err.kind = requirement_error.option_not_found_error ∧
          err.opt.type = option_type.mandatory_option ∧
          ∃ v ∈ options', v.first = err.opt ∧ v.found = false)) := by
  have hkeys := parse_keys options argv options' res h
  obtain ⟨steps, s1, s2, s3, s4⟩ := parse_steps options argv options' res h
  intro err herr
  rw [s3, List.mem_append] at herr
  rcases herr with herr | herr
  · obtain ⟨l, hl, hmem⟩ := List.mem_flatten.mp herr
    obtain ⟨s, hs, rfl⟩ := List.mem_map.mp hl
    obtain ⟨p1, p2, ve, hve, hcases, hnm, hnone⟩ := evaluate_entry_post argv s.1 s.2.1 s.2.2 (s4 s hs)
    have hin : s.1.first ∈ keys options := by
      rw [s1]; exact List.mem_map.mpr ⟨s.1, List.mem_map.mpr ⟨s, hs, rfl⟩, rfl⟩
    have hve_facts : ∀ x ∈ ve, matched s.1.first argv ∧
        s.1.first.constraint ≠ value_constraint.no_values := by
      intro x hx
      constructor
      · by_contra hcon
        rw [(hnm hcon).1] at hx
        exact absurd hx (List.not_mem_nil _)
      · intro hcon
        rw [(hnone hcon).1] at hx
        exact absurd hx (List.not_mem_nil _)
    rw [hve, List.mem_append] at hmem
    rcases hmem with hmem | hmem
    · unfold names_error at hmem
      split at hmem
      · rename_i hn
        rw [List.mem_singleton] at hmem
        subst hmem
        exact ⟨hin, Or.inl ⟨rfl, hn.1, hn.2⟩⟩
      · exact absurd hmem (List.not_mem_nil _)
    · have hf := hve_facts err hmem
      rcases hcases with hc | hc | hc
      · rw [hc] at hmem; exact absurd hmem (List.not_mem_nil _)
      · rw [hc, List.mem_singleton] at hmem
        subst hmem
        exact ⟨hin, Or.inr (Or.inl ⟨rfl, hf.1, hf.2⟩)⟩
      · rw [hc, List.mem_singleton] at hmem
        subst hmem
        exact ⟨hin, Or.inr (Or.inr (Or.inl ⟨rfl, hf.1, hf.2⟩))⟩
  · unfold not_found_errors at herr
    obtain ⟨v, hv, rfl⟩ := List.mem_map.mp herr
    rw [List.mem_filter] at hv
    obtain ⟨hv1, hv2⟩ := hv
    simp only [Bool.and_eq_true, decide_eq_true_eq, Bool.not_eq_true'] at hv2
    refine ⟨?_, Or.inr (Or.inr (Or.inr ⟨rfl, hv2.1, v, hv1, rfl, hv2.2⟩))⟩
    rw [← hkeys]
    exact List.mem_map.mpr ⟨v, hv1, rfl⟩

/-- The entries before and after a run of `parse` that returns, side by side: the
key is kept and a descriptor without values keeps its value list. -/
theorem parse_no_values_entries (options : opt_map) (argv : List String)
    (options' : opt_map) (res : result) (h : parse options argv = some (options', res)) :
    List.Forall₂ (fun (e e' : entry) => e'.first = e.first ∧
      (e.first.constraint = value_constraint.no_values → e'.values = e.values))
      options options' := by
  obtain ⟨steps, s1, s2, _, s4⟩ := parse_steps options argv options' res h
  subst s1; subst s2
  rw [List.forall₂_map_left_iff, List.forall₂_map_right_iff, List.forall₂_same]
  intro s hs
  obtain ⟨p1, _, ve, _, _, _, hnone⟩ := evaluate_entry_post argv s.1 s.2.1 s.2.2 (s4 s hs)
  exact ⟨p1, fun hc => (hnone hc).2⟩

theorem count_names_error_steps (argv : List String) (d : option)
    (hd : d.short_name = "" ∧ d.long_name = "") :
    ∀ steps : List (entry × entry × List error),
      (∀ s ∈ steps, evaluate_entry argv s.1 ⟨[]⟩ = some (s.2.1, ⟨s.2.2⟩)) →
      ((steps.map (fun s => s.2.2)).flatten).count
          ⟨d, requirement_error.option_has_no_names_error⟩ =
        (keys (steps.map (fun s => s.1))).count d := by
  intro steps
  induction steps with
  | nil => intro _; rfl
  | cons s steps ih =>
    intro h
    have hs := h s (List.mem_cons_self _ _)
    have ih' := ih (fun x hx => h x (List.mem_cons_of_mem _ hx))
    obtain ⟨hk1, hk2⟩ := evaluate_entry_kinds argv s.1 s.2.1 s.2.2 hs
    simp only [List.map_cons, List.flatten_cons, List.count_append, keys, List.count_cons]
    simp only [keys] at ih'
    rw [ih']
    by_cases heq : s.1.first = d
    · rw [heq] at hk2
      rw [hk2, if_pos hd]
      simp [heq]; omega
    · have h0 : s.2.2.count ⟨d, requirement_error.option_has_no_names_error⟩ = 0 := by
        apply List.count_eq_zero_of_not_mem
        intro hmem
        exact heq ((hk1 _ hmem).1).symm
      rw [h0]
      simp [heq]

theorem count_not_found_errors (d : option) (options : opt_map) :
    (not_found_errors options).count ⟨d, requirement_error.option_not_found_error⟩ ≤
      (keys options).count d := by
  induction options with
  | nil => simp [not_found_errors, keys]
  | cons v rest ih =>
    simp only [not_found_errors, keys] at ih
    simp only [not_found_errors, keys, List.filter_cons, List.map_cons, List.count_cons]
    split
    · simp only [List.map_cons, List.count_cons]
      by_cases hv : v.first = d
      · simp [hv]; omega
      · have : ¬ ((⟨v.first, requirement_error.option_not_found_error⟩ : error) ==
            ⟨d, requirement_error.option_not_found_error⟩) = true := by
          simpa using hv
        simp [hv]; omega
    · split <;> omega

/-- The runs of `parse` without a result: some registered descriptor is named by a
token, takes values, and between its first naming token and the end of the
argument vector there is no option marker and there are fewer tokens than `read`
is asked for. -/
theorem parse_eq_none_iff (options : opt_map) (argv : List String) :
    parse options argv = none ↔ ∃ e ∈ options, overruns e.first argv := by
  rw [← evaluate_loop_eq_none_iff argv options ⟨[]⟩]
  unfold parse evaluate_values
  cases evaluate_loop argv options ⟨[]⟩ with
  | none => simp
  | some p => simp

/-- A run of `parse` in closed form: when no read runs past the end of the argument
vector, parse returns; every entry is updated from its first naming token alone,
and the error list is the errors of the first phase, descriptor by descriptor in
iteration order, followed by the OPTION_NOT_FOUND errors in iteration order. -/
theorem parse_closed (options : opt_map) (argv : List String)
    (h : ∀ e ∈ options, ¬ overruns e.first argv) :
    parse options argv =
      some (options.map (entry_after argv),
        ⟨(options.map (fun e => phase_one_errors e.first argv)).flatten ++
          not_found_errors (options.map (entry_after argv))⟩) := by
  unfold parse evaluate_values
  rw [evaluate_loop_closed argv options ⟨[]⟩ h]
  simp only [List.nil_append, Option.some.injEq, Prod.mk.injEq, true_and]
  have := check_mandatory_errors (options.map (entry_after argv))
    ⟨(options.map (fun e => phase_one_errors e.first argv)).flatten⟩
  cases hcm : check_mandatory (options.map (entry_after argv))
    ⟨(options.map (fun e => phase_one_errors e.first argv)).flatten⟩ with
  | mk errs =>
    rw [hcm] at this
    simp only at this
    rw [this]

/-- A run of `parse` that returns is the run described by `parse_closed`. -/
theorem parse_some_closed (options : opt_map) (argv : List String) (options' : opt_map)
    (res : result) (h : parse options argv = some (options', res)) :
    options' = options.map (entry_after argv) ∧
    res.errors = (options.map (fun e => phase_one_errors e.first argv)).flatten ++
      not_found_errors (options.map (entry_after argv)) := by
  have hsafe : ∀ e ∈ options, ¬ overruns e.first argv := by
    intro e he hov
    rw [(parse_eq_none_iff options argv).mpr ⟨e, he, hov⟩] at h
    exact absurd h (by simp)
  rw [parse_closed options argv hsafe] at h
  simp only [Option.some.injEq, Prod.mk.injEq] at h
  exact ⟨h.1.symm, by rw [← h.2]⟩

/-- The values after a run of `parse` that returns, on a registry not parsed before. -/
theorem parse_values_fresh (options : opt_map) (argv : List String) (options' : opt_map)
    (res : result) (hfresh : fresh options) (h : parse options argv = some (options', res)) :
    ∀ e' ∈ options', e'.values = collected e'.first argv := by
  obtain ⟨h1, _⟩ := parse_some_closed options argv options' res h
  intro e' he'
  rw [h1] at he'
  obtain ⟨e, he, rfl⟩ := List.mem_map.mp he'
  have hv := (hfresh e he).1
  unfold entry_after collected
  cases hta : tokens_after e.first argv with
  | none => simp [hv, hta]
  | some post =>
    by_cases hc : e.first.constraint = value_constraint.no_values
    · simp [hc, hv, hta]
    · simp [hc, hv, hta]

/-- An UNLIMITED descriptor asks for all tokens after its option, so the whole
marker-free run is collected. -/
theorem collected_unlimited (d : option) (argv post : List String)
    (hd : d.constraint = value_constraint.unlimited_num_values)
    (h : tokens_after d argv = some post) : collected d argv = value_run post := by
  unfold collected
  rw [h]
  simp only [hd, wanted, if_true]
  have : (value_run post).length ≤ post.length := by
    unfold value_run
    exact (List.takeWhile_sublist _).length_le
  simp [List.take_of_length_le this]

/-- The NOT_ENOUGH_VALUES errors of a run of `parse` that returns: there is one for
a registered descriptor exactly when a token names the descriptor and the constraint
switch reports the number of values read after the first such token. -/
theorem parse_not_enough_iff (options : opt_map) (argv : List String) (options' : opt_map)
    (res : result) (h : parse options argv = some (options', res)) :
    ∀ d ∈ keys options,
      ((⟨d, requirement_error.not_enough_values_error⟩ : error) ∈ res.errors ↔
        ∃ post, tokens_after d argv = some post ∧
          (⟨d, requirement_error.not_enough_values_error⟩ : error) ∈
            value_error d (min (wanted d post) (value_run post).length)) := by
  obtain ⟨_, h2⟩ := parse_some_closed options argv options' res h
  intro d hd
  have hphase : (⟨d, requirement_error.not_enough_values_error⟩ : error) ∈
      phase_one_errors d argv ↔
      ∃ post, tokens_after d argv = some post ∧
        (⟨d, requirement_error.not_enough_values_error⟩ : error) ∈
          value_error d (min (wanted d post) (value_run post).length) := by
    unfold phase_one_errors
    rw [List.mem_append]
    have hn : (⟨d, requirement_error.not_enough_values_error⟩ : error) ∉ names_error d := by
      unfold names_error
      split <;> simp
    cases hta : tokens_after d argv with
    | none => simp [hn]
    | some post => simp [hn]
  rw [h2, List.mem_append, ← hphase]
  constructor
  · rintro (hmem | hmem)
    · obtain ⟨l, hl, hin⟩ := List.mem_flatten.mp hmem
      obtain ⟨e, _, rfl⟩ := List.mem_map.mp hl
      have := phase_one_errors_opt e.first argv _ hin
      simp only at this
      rw [← this] at hin
      exact hin
    · unfold not_found_errors at hmem
      obtain ⟨v, _, hv⟩ := List.mem_map.mp hmem
      simp at hv
  · intro hmem
    left
    obtain ⟨e, he, hed⟩ := List.mem_map.mp hd
    exact List.mem_flatten.mpr ⟨_, List.mem_map.mpr ⟨e, he, rfl⟩, by rw [hed]; exact hmem⟩

theorem parse_found_tokens (options : opt_map) (argv : List String) (options' : opt_map)
    (res : result) (hfresh : fresh options) (h : parse options argv = some (options', res)) :
    ∀ e' ∈ options', (e'.found = true ↔ ∃ post, tokens_after e'.first argv = some post) := by
  intro e' he'
  rw [parse_found options argv options' res hfresh h e' he']
  constructor
  · intro hm
    obtain ⟨pre, t, post, hfm⟩ := first_match_of_matched _ _ hm
    exact ⟨post, tokens_after_of_first_match _ _ _ _ _ hfm⟩
  · rintro ⟨post, hp⟩
    by_contra hm
    rw [tokens_after_of_not_matched _ _ hm] at hp
    exact absurd hp (by simp)

/-- EXACT(n) on a registry not parsed before, for a run of `parse` that returns: at
most n values are collected; either exactly n and there is no NOT_ENOUGH_VALUES
error for the descriptor, or fewer than n and, when the descriptor was found, there
is such an error. -/
theorem parse_exact_fresh (options : opt_map) (argv : List String) (options' : opt_map)
    (res : result) (hfresh : fresh options) (h : parse options argv = some (options', res)) :
    ∀ e' ∈ options', e'.first.constraint = value_constraint.exact_num_values →
      e'.values.length ≤ e'.first.num_expected_values ∧
      ((e'.values.length = e'.first.num_expected_values ∧
          (⟨e'.first, requirement_error.not_enough_values_error⟩ : error) ∉ res.errors) ∨
        (e'.values.length < e'.first.num_expected_values ∧
          (e'.found = true →
            (⟨e'.first, requirement_error.not_enough_values_error⟩ : error) ∈ res.errors))) := by
  intro e' he' hc
  have hk : e'.first ∈ keys options := by
    rw [← parse_keys options argv options' res h]
    exact List.mem_map.mpr ⟨e', he', rfl⟩
  have hval := parse_values_fresh options argv options' res hfresh h e' he'
  have herr := parse_not_enough_iff options argv options' res h e'.first hk
  have hfound := parse_found_tokens options argv options' res hfresh h e' he'
  have hwant : ∀ post, wanted e'.first post = e'.first.num_expected_values := by
    intro post; simp [wanted, hc]
  cases hta : tokens_after e'.first argv with
  | none =>
    have hv0 : e'.values = [] := by rw [hval]; simp [collected, hta]
    have hnf : ¬ e'.found = true := by
      rw [hfound, hta]; simp
    have hne : (⟨e'.first, requirement_error.not_enough_values_error⟩ : error) ∉ res.errors := by
      rw [herr, hta]; simp
    rw [hv0]
    refine ⟨Nat.zero_le _, ?_⟩
    by_cases hn : e'.first.num_expected_values = 0
    · left; exact ⟨by simp [hn], hne⟩
    · right; exact ⟨by simp; omega, fun hf => absurd hf hnf⟩
  | some post =>
    have hlen : e'.values.length =
        min e'.first.num_expected_values (value_run post).length := by
      rw [hval]; simp [collected, hta, hc, hwant]
    have herr' : (⟨e'.first, requirement_error.not_enough_values_error⟩ : error) ∈ res.errors ↔
        min e'.first.num_expected_values (value_run post).length ≠
          e'.first.num_expected_values := by
      rw [herr, hta]
      simp only [Option.some.injEq, exists_eq_left', hwant, value_error, hc]
      split <;> simp_all
    rw [hlen]
    refine ⟨Nat.min_le_left _ _, ?_⟩
    by_cases hmin : min e'.first.num_expected_values (value_run post).length =
        e'.first.num_expected_values
    · left; exact ⟨hmin, fun hmem => (herr'.mp hmem) hmin⟩
    · right
      exact ⟨lt_of_le_of_ne (Nat.min_le_left _ _) hmin, fun _ => herr'.mpr hmin⟩

/-- UP_TO(n) and UNLIMITED, for a run of `parse` that returns: a descriptor that a
token names has a NOT_ENOUGH_VALUES error exactly when no value was read after
its first naming token. -/
theorem parse_up_to_unlimited (options : opt_map) (argv : List String) (options' : opt_map)
    (res : result) (h : parse options argv = some (options', res)) :
    ∀ d ∈ keys options,
      (d.constraint = value_constraint.up_to_num_values ∨
        d.constraint = value_constraint.unlimited_num_values) →
      ∀ post, tokens_after d argv = some post →
        ((⟨d, requirement_error.not_enough_values_error⟩ : error) ∈ res.errors ↔
          min (wanted d post) (value_run post).length = 0) := by
  intro d hd hc post hpost
  rw [parse_not_enough_iff options argv options' res h d hd, hpost]
  simp only [Option.some.injEq, exists_eq_left', value_error]
  by_cases hm : min (wanted d post) (value_run post).length = 0
  · have h0 : 0 = min (wanted d post) (value_run post).length := hm.symm
    rcases hc with hc | hc <;> rw [hc] <;> simp only [] <;> rw [if_pos h0] <;> simp [hm]
  · have h0 : ¬ 0 = min (wanted d post) (value_run post).length := fun hz => hm hz.symm
    rcases hc with hc | hc <;> rw [hc] <;> simp only [] <;> rw [if_neg h0] <;> simp [hm]

/-! ## Lemmas on the closed form -/

theorem tokens_after_isSome_iff (d : option) (argv : List String) :
    (tokens_after d argv).isSome = true ↔ matched d argv := by
  by_cases hm : matched d argv
  · obtain ⟨pre, t, post, hfm⟩ := first_match_of_matched _ _ hm
    rw [tokens_after_of_first_match _ _ _ _ _ hfm]
    simp [hm]
  · rw [tokens_after_of_not_matched _ _ hm]
    simp [hm]

theorem entry_after_first (argv : List String) (e : entry) :
    (entry_after argv e).first = e.first := by
  unfold entry_after
  split
  · rfl
  · split <;> rfl

theorem entry_after_found (argv : List String) (e : entry) :
    (entry_after argv e).found = (e.found || (tokens_after e.first argv).isSome) := by
  unfold entry_after
  cases tokens_after e.first argv with
  | none => simp
  | some post =>
    simp only [Option.isSome_some, Bool.or_true]
    split <;> rfl

theorem entry_after_values (argv : List String) (e : entry) :
    (entry_after argv e).values = e.values ++ collected e.first argv := by
  unfold entry_after collected
  cases tokens_after e.first argv with
  | none => simp
  | some post =>
    simp only []
    split <;> simp

theorem entry_after_unmatched (argv : List String) (e : entry)
    (h : ¬ matched e.first argv) : entry_after argv e = e := by
  unfold entry_after
  rw [tokens_after_of_not_matched _ _ h]

theorem keys_map_entry_after (argv : List String) (options : opt_map) :
    keys (options.map (entry_after argv)) = keys options := by
  simp only [keys, List.map_map]
  apply List.map_congr_left
  intro e _
  exact entry_after_first argv e

theorem phase_one_map_entry_after (argv argv' : List String) (options : opt_map) :
    (options.map (entry_after argv)).map (fun e => phase_one_errors e.first argv') =
      options.map (fun e => phase_one_errors e.first argv') := by
  rw [List.map_map]
  apply List.map_congr_left
  intro e _
  simp only [Function.comp, entry_after_first]

theorem not_found_errors_cons (v : entry) (rest : opt_map) :
    not_found_errors (v :: rest) =
      (if (decide (v.first.type = option_type.mandatory_option) && !v.found) = true then
        [(⟨v.first, requirement_error.option_not_found_error⟩ : error)] else []) ++
      not_found_errors rest := by
  simp only [not_found_errors, List.filter_cons]
  split <;> simp

/-- A run of `parse` that returns on `options` returns on every registry with the
same keys: whether `read` runs past the end depends on the descriptors and the
argument vector only. -/
theorem parse_returns_of_keys (options options2 : opt_map) (argv : List String)
    (hk : keys options2 = keys options)
    (h : ∀ e ∈ options, ¬ overruns e.first argv) :
    ∀ e ∈ options2, ¬ overruns e.first argv := by
  intro e he hov
  have : e.first ∈ keys options := by rw [← hk]; exact List.mem_map.mpr ⟨e, he, rfl⟩
  obtain ⟨x, hx, hxe⟩ := List.mem_map.mp this
  exact h x hx (by rw [hxe]; exact hov)

theorem parse_some_safe (options : opt_map) (argv : List String) (options' : opt_map)
    (res : result) (h : parse options argv = some (options', res)) :
    ∀ e ∈ options, ¬ overruns e.first argv := by
  intro e he hov
  rw [(parse_eq_none_iff options argv).mpr ⟨e, he, hov⟩] at h
  exact absurd h (by simp)

theorem value_error_invalid (d : option) (k : Nat) (x : error) (hx : x ∈ value_error d k)
    (hk : x.kind = requirement_error.invalid_value_constraint_error) :
    ∃ tag, d.constraint = value_constraint.unrecognized tag := by
  unfold value_error at hx
  split at hx
  · exact absurd hx (List.not_mem_nil _)
  · split at hx
    · rw [List.mem_singleton] at hx; subst hx; exact absurd hk (by simp)
    · exact absurd hx (List.not_mem_nil _)
  · split at hx
    · rw [List.mem_singleton] at hx; subst hx; exact absurd hk (by simp)
    · exact absurd hx (List.not_mem_nil _)
  · split at hx
    · rw [List.mem_singleton] at hx; subst hx; exact absurd hk (by simp)
    · exact absurd hx (List.not_mem_nil _)
  · rename_i tag hc
    exact ⟨tag, hc⟩

/-- The errors of one round: the error for a descriptor without names, if any,
then at most one value error for the descriptor. -/
theorem phase_one_errors_shape (d : option) (argv : List String) :
    ∃ v, phase_one_errors d argv = names_error d ++ v ∧ v.length ≤ 1 ∧
      ∀ x ∈ v, x.opt = d ∧ (x.kind = requirement_error.not_enough_values_error ∨
        x.kind = requirement_error.invalid_value_constraint_error) := by
  unfold phase_one_errors
  cases tokens_after d argv with
  | none => exact ⟨[], rfl, by simp, by simp⟩
  | some post =>
    refine ⟨value_error d (min (wanted d post) (value_run post).length), rfl, ?_,
      value_error_opt d _⟩
    unfold value_error
    split <;> (try split) <;> simp

theorem value_run_append_marker (mid : List String) (t2 : String) (rest : List String)
    (ht2 : is_option t2 ≠ 0) : value_run (mid ++ t2 :: rest) = value_run mid := by
  unfold value_run
  induction mid with
  | nil => simp [List.takeWhile, ht2]
  | cons a as ih =>
    simp only [List.cons_append, List.takeWhile_cons]
    split
    · rw [ih]
    · rfl

theorem value_run_length_le (rest : List String) : (value_run rest).length ≤ rest.length := by
  unfold value_run
  exact (List.takeWhile_sublist _).length_le

theorem value_run_markerless (rest : List String) : ∀ x ∈ value_run rest, is_option x = 0 := by
  intro x hx
  unfold value_run at hx
  have := List.mem_takeWhile_imp hx
  simpa using this

theorem value_run_subset (rest : List String) : ∀ x ∈ value_run rest, x ∈ rest := by
  intro x hx
  unfold value_run at hx
  exact (List.takeWhile_sublist _).subset hx

/-- The values taken from the run after the first naming token when a later token
`t2` is an option marker: only the tokens `mid` before `t2` count. -/
theorem take_wanted_cut (d : option) (mid : List String) (t2 : String) (rest : List String)
    (ht2 : is_option t2 ≠ 0) :
    (value_run (mid ++ t2 :: rest)).take (wanted d (mid ++ t2 :: rest)) =
      (value_run mid).take (wanted d mid) ∧
    min (wanted d (mid ++ t2 :: rest)) (value_run (mid ++ t2 :: rest)).length =
      min (wanted d mid) (value_run mid).length := by
  rw [value_run_append_marker mid t2 rest ht2]
  have hle := value_run_length_le mid
  unfold wanted
  by_cases hu : d.constraint = value_constraint.unlimited_num_values
  · simp only [hu, if_true, List.length_append, List.length_cons]
    constructor
    · rw [List.take_of_length_le (by omega), List.take_of_length_le hle]
    · omega
  · simp only [hu, if_false]
    exact ⟨trivial, trivial⟩

theorem tokens_after_suffix (d : option) (argv post : List String)
    (h : tokens_after d argv = some post) : ∃ k, 2 ≤ k ∧ post = argv.drop k := by
  have hm : matched d argv := by
    rw [← tokens_after_isSome_iff, h]; rfl
  obtain ⟨pre, t, post', hfm⟩ := first_match_of_matched _ _ hm
  have h' := tokens_after_of_first_match _ _ _ _ _ hfm
  rw [h] at h'
  simp only [Option.some.injEq] at h'
  subst h'
  refine ⟨pre.length + 2, by omega, ?_⟩
  have h1 := hfm.1
  have : argv.drop (pre.length + 2) = (argv.drop 1).drop (pre.length + 1) := by
    rw [List.drop_drop]
    congr 1
    omega
  rw [this, h1, List.drop_append_eq_append_drop]
  simp

theorem collected_values (d : option) (argv : List String) :
    ∀ v ∈ collected d argv, is_option v = 0 ∧ ∃ i, 2 ≤ i ∧ argv[i]? = some v := by
  intro v hv
  unfold collected at hv
  cases hta : tokens_after d argv with
  | none => rw [hta] at hv; exact absurd hv (List.not_mem_nil _)
  | some post =>
    rw [hta] at hv
    simp only [] at hv
    split at hv
    · exact absurd hv (List.not_mem_nil _)
    · have hrun := List.mem_of_mem_take hv
      refine ⟨value_run_markerless post v hrun, ?_⟩
      obtain ⟨k, hk, hpost⟩ := tokens_after_suffix d argv post hta
      have hin : v ∈ argv.drop k := by rw [← hpost]; exact value_run_subset post v hrun
      rw [List.mem_iff_getElem?] at hin
      obtain ⟨j, hj⟩ := hin
      rw [List.getElem?_drop] at hj
      exact ⟨k + j, by omega, hj⟩

/-- The value errors of a run of `parse` that returns: there is one of kind `k`
(NOT_ENOUGH_VALUES or INVALID_VALUE_CONSTRAINT) for a registered descriptor exactly
when a token names the descriptor and the constraint switch pushes it for the
number of values read after the first such token. -/
theorem parse_value_error_iff (options : opt_map) (argv : List String) (options' : opt_map)
    (res : result) (h : parse options argv = some (options', res)) (k : requirement_error)
    (hk : k = requirement_error.not_enough_values_error ∨
      k = requirement_error.invalid_value_constraint_error) :
    ∀ d ∈ keys options,
      ((⟨d, k⟩ : error) ∈ res.errors ↔
        ∃ post, tokens_after d argv = some post ∧
          (⟨d, k⟩ : error) ∈ value_error d (min (wanted d post) (value_run post).length)) := by
  obtain ⟨_, h2⟩ := parse_some_closed options argv options' res h
  intro d hd
  have hphase : (⟨d, k⟩ : error) ∈ phase_one_errors d argv ↔
      ∃ post, tokens_after d argv = some post ∧
        (⟨d, k⟩ : error) ∈ value_error d (min (wanted d post) (value_run post).length) := by
    unfold phase_one_errors
    rw [List.mem_append]
    have hn : (⟨d, k⟩ : error) ∉ names_error d := by
      unfold names_error
      rcases hk with hk | hk <;> rw [hk] <;> split <;> simp
    cases hta : tokens_after d argv with
    | none => simp [hn]
    | some post => simp [hn]
  rw [h2, List.mem_append, ← hphase]
  constructor
  · rintro (hmem | hmem)
    · obtain ⟨l, hl, hin⟩ := List.mem_flatten.mp hmem
      obtain ⟨e, _, rfl⟩ := List.mem_map.mp hl
      have := phase_one_errors_opt e.first argv _ hin
      simp only at this
      rw [← this] at hin
      exact hin
    · unfold not_found_errors at hmem
      obtain ⟨v, _, hv⟩ := List.mem_map.mp hmem
      simp only [error.mk.injEq] at hv
      rcases hk with hk | hk <;> rw [hk] at hv <;> exact absurd hv.2 (by simp)
  · intro hmem
    left
    obtain ⟨e, he, hed⟩ := List.mem_map.mp hd
    exact List.mem_flatten.mpr ⟨_, List.mem_map.mpr ⟨e, he, rfl⟩, by rw [hed]; exact hmem⟩

theorem collected_of_not_matched (d : option) (argv : List String)
    (h : (tokens_after d argv).isSome = false) : collected d argv = [] := by
  unfold collected
  cases hta : tokens_after d argv with
  | none => rfl
  | some post => rw [hta] at h; exact absurd h (by simp)

/-! ## Queries and successive calls -/

theorem is_option_cases (arg : String) :
    (arg.data.take 2 = ['-', '-'] ∧ is_option arg = 2) ∨
    (arg.data.take 2 ≠ ['-', '-'] ∧ arg.data.take 1 = ['-'] ∧ is_option arg = 1) ∨
    (arg.data.take 1 ≠ ['-'] ∧ is_option arg = 0) := by
  have e2 : (substr_to arg 2 = "--") ↔ arg.data.take 2 = ['-', '-'] := by
    unfold substr_to
    constructor
    · intro h; exact congrArg String.data h
    · intro h; rw [h]
  have e1 : (substr_to arg 1 = "-") ↔ arg.data.take 1 = ['-'] := by
    unfold substr_to
    constructor
    · intro h; exact congrArg String.data h
    · intro h; rw [h]
  unfold is_option
  by_cases h2 : arg.data.take 2 = ['-', '-']
  · left; exact ⟨h2, by rw [if_pos (e2.mpr h2)]⟩
  · by_cases h1 : arg.data.take 1 = ['-']
    · right; left
      exact ⟨h2, h1, by rw [if_neg (fun h => h2 (e2.mp h)), if_pos (e1.mpr h1)]⟩
    · right; right
      refine ⟨h1, ?_⟩
      rw [if_neg (fun h => h2 (e2.mp h)), if_neg (fun h => h1 (e1.mp h))]

theorem take_two_iff (l : List Char) :
    l.take 2 = ['-', '-'] ↔ ['-', '-'] <+: l := by
  constructor
  · intro h
    exact ⟨l.drop 2, by rw [← h]; exact List.take_append_drop 2 l⟩
  · rintro ⟨r, rfl⟩; rfl

theorem take_one_iff (l : List Char) :
    l.take 1 = ['-'] ↔ ['-'] <+: l := by
  constructor
  · intro h
    exact ⟨l.drop 1, by rw [← h]; exact List.take_append_drop 1 l⟩
  · rintro ⟨r, rfl⟩; rfl

theorem has_option_eq_any (options : opt_map) (name : String) :
    has_option options name =
      options.any (fun item => item.first.is_name_known name && item.found) := by
  unfold has_option find_option
  induction options with
  | nil => rfl
  | cons e rest ih =>
    simp only [List.find?_cons, List.any_cons]
    cases hp : (e.first.is_name_known name && e.found) with
    | true => simp
    | false => simpa using ih

theorem any_congr_mem {α : Type} (f g : α → Bool) (l : List α)
    (h : ∀ x ∈ l, f x = g x) : l.any f = l.any g := by
  induction l with
  | nil => rfl
  | cons a as ih =>
    simp only [List.any_cons]
    rw [h a (List.mem_cons_self _ _), ih (fun x hx => h x (List.mem_cons_of_mem _ hx))]

theorem any_or_distrib {α : Type} (f g : α → Bool) (l : List α) :
    l.any (fun x => f x || g x) = (l.any f || l.any g) := by
  induction l with
  | nil => rfl
  | cons a as ih =>
    simp only [List.any_cons, ih]
    cases f a <;> cases g a <;> cases as.any f <;> cases as.any g <;> rfl

theorem values_from_option_unknown (options : opt_map) (name : String)
    (h : ∀ e ∈ options, e.first.is_name_known name = false) :
    values_from_option options name = [] := by
  rcases find_option_spec options name with ⟨hnone, _⟩ | ⟨l1, e, l2, _, hsplit, _, hname, _⟩
  · simp [values_from_option, hnone]
  · have hmem : e ∈ options := by rw [hsplit]; simp
    have := h e hmem
    simp only [option.is_name_known, Bool.or_eq_false_iff, decide_eq_false_iff_not] at this
    rcases hname with hn | hn
    · exact absurd hn this.1
    · exact absurd hn this.2

/-- In a registry without common names the lookup of a name goes to the one entry
whose descriptor knows the name. -/
theorem values_from_option_known (options : opt_map) (name : String) (x : entry)
    (hdis : names_disjoint options) (hx : x ∈ options)
    (hknows : x.first.is_name_known name = true)
    (hempty : x.found = false → x.values = []) :
    values_from_option options name = x.values := by
  have hxname : name = x.first.short_name ∨ name = x.first.long_name := by
    simpa [option.is_name_known] using hknows
  rcases find_option_spec options name with ⟨hnone, hall⟩ | ⟨l1, e, l2, hsome, hsplit, _, hname, _⟩
  · have hnf : x.found = false := by
      rw [← Bool.not_eq_true]
      intro hf
      exact hall x hx ⟨hxname, hf⟩
    simp [values_from_option, hnone, hempty hnf]
  · have hmem : e ∈ options := by rw [hsplit]; simp
    have hshare : shares_name e.first x.first := by
      unfold shares_name
      rcases hname with h1 | h1 <;> rcases hxname with h2 | h2
      · exact Or.inl (h1.symm.trans h2)
      · exact Or.inr (Or.inl (h1.symm.trans h2))
      · exact Or.inr (Or.inr (Or.inl (h1.symm.trans h2)))
      · exact Or.inr (Or.inr (Or.inr (h1.symm.trans h2)))
    have hkeys : e.first = x.first :=
      names_disjoint_eq options hdis e.first x.first
        (List.mem_map.mpr ⟨e, hmem, rfl⟩) (List.mem_map.mpr ⟨x, hx, rfl⟩) hshare
    have hex : e = x :=
      List.inj_on_of_nodup_map (names_disjoint_nodup options hdis) hmem hx hkeys
    simp [values_from_option, hsome, hex]

theorem names_disjoint_of_keys (options options2 : opt_map)
    (hk : keys options2 = keys options) (h : names_disjoint options) :
    names_disjoint options2 := by
  unfold names_disjoint; rw [hk]; exact h

theorem phase_one_errors_still_reported (d : option) (argv argv' : List String) :
    ∀ err ∈ phase_one_errors d argv, still_reported argv' err = true := by
  intro err herr
  obtain ⟨v, hv, _, hkinds⟩ := phase_one_errors_shape d argv
  rw [hv, List.mem_append] at herr
  unfold still_reported
  rcases herr with herr | herr
  · unfold names_error at herr
    split at herr
    · rw [List.mem_singleton] at herr; subst herr; simp
    · exact absurd herr (List.not_mem_nil _)
  · rcases (hkinds err herr).2 with hk | hk <;> simp [hk]

theorem not_found_errors_second_call (argv_a argv_b : List String) :
    ∀ options : opt_map, fresh options →
      (not_found_errors (options.map (entry_after argv_b))).filter (still_reported argv_a) =
        not_found_errors ((options.map (entry_after argv_a)).map (entry_after argv_b)) := by
  intro options
  induction options with
  | nil => intro _; rfl
  | cons e rest ih =>
    intro hfresh
    have he := (hfresh e (List.mem_cons_self _ _)).2
    have ih' := ih (fun x hx => hfresh x (List.mem_cons_of_mem _ hx))
    have hdec : decide (matched e.first argv_a) = (tokens_after e.first argv_a).isSome := by
      cases hs : (tokens_after e.first argv_a).isSome with
      | true => simpa using (tokens_after_isSome_iff _ _).mp hs
      | false =>
        have : ¬ matched e.first argv_a := fun hm => by
          rw [(tokens_after_isSome_iff _ _).mpr hm] at hs
          exact absurd hs (by simp)
        simpa using this
    have hsr : still_reported argv_a ⟨e.first, requirement_error.option_not_found_error⟩ =
        !(tokens_after e.first argv_a).isSome := by
      simp [still_reported, hdec]
    rw [List.map_cons, List.map_cons, List.map_cons, not_found_errors_cons,
      not_found_errors_cons, List.filter_append, ih']
    congr 1
    simp only [entry_after_first, entry_after_found, he, Bool.false_or]
    cases hm : decide (e.first.type = option_type.mandatory_option) <;>
      cases hb : (tokens_after e.first argv_b).isSome <;>
      cases ha : (tokens_after e.first argv_a).isSome <;>
      simp [List.filter_cons, hsr, ha]

theorem run_calls_names_disjoint (lt : option → option → Bool) (calls : List call) :
    ∀ (start options : opt_map), names_disjoint start →
      run_calls lt start calls = some options → names_disjoint options := by
  induction calls with
  | nil =>
    intro start options hs h
    simp only [run_calls, Option.some.injEq] at h
    rw [← h]; exact hs
  | cons c cs ih =>
    intro start options hs h
    simp only [run_calls] at h
    cases c with
    | add_option opt =>
      simp only [run_call] at h
      exact ih _ _ (add_option_names_disjoint lt start opt hs) h
    | parse argv =>
      simp only [run_call] at h
      cases hp : parse start argv with
      | none => rw [hp] at h; exact absurd h (by simp)
      | some p =>
        obtain ⟨o, r⟩ := p
        rw [hp] at h
        simp only at h
        exact ih _ _ (names_disjoint_of_keys start o (parse_keys start argv o r hp) hs) h

theorem value_of_calls_mono (calls calls' : List call) (v : String)
    (hsub : ∀ c ∈ calls, c ∈ calls') (h : value_of_calls calls v) :
    value_of_calls calls' v := by
  obtain ⟨h0, argv, hmem, hi⟩ := h
  exact ⟨h0, argv, hsub _ hmem, hi⟩

theorem run_calls_values (lt : option → option → Bool) (calls : List call) :
    ∀ (start : opt_map) (done : List call) (options : opt_map),
      (∀ e ∈ start, ∀ v ∈ e.values, value_of_calls done v) →
      run_calls lt start calls = some options →
      ∀ e ∈ options, ∀ v ∈ e.values, value_of_calls (done ++ calls) v := by
  induction calls with
  | nil =>
    intro start done options hs h
    simp only [run_calls, Option.some.injEq] at h
    rw [← h, List.append_nil]; exact hs
  | cons c cs ih =>
    intro start done options hs h
    simp only [run_calls] at h
    have hassoc : done ++ c :: cs = (done ++ [c]) ++ cs := by simp
    rw [hassoc]
    cases c with
    | add_option opt =>
      simp only [run_call] at h
      refine ih _ (done ++ [call.add_option opt]) options ?_ h
      intro e he v hv
      have hold : ∀ x ∈ start, ∀ w ∈ x.values,
          value_of_calls (done ++ [call.add_option opt]) w := fun x hx w hw =>
        value_of_calls_mono done _ w (fun c hc => List.mem_append_left _ hc) (hs x hx w hw)
      unfold add_option at he
      split at he
      · exact hold e he v hv
      · rcases map_assign_cases lt opt start with ⟨l1, l2, e1, e2⟩ | ⟨l1, x, l2, e1, e2⟩
        · simp only [e2] at he
          rw [e1] at hold
          rcases List.mem_append.mp he with he | he
          · exact hold e (List.mem_append_left _ he) v hv
          · rcases List.mem_cons.mp he with rfl | he
            · exact absurd hv (List.not_mem_nil _)
            · exact hold e (List.mem_append_right _ he) v hv
        · simp only [e2] at he
          rw [e1] at hold
          rcases List.mem_append.mp he with he | he
          · exact hold e (List.mem_append_left _ he) v hv
          · rcases List.mem_cons.mp he with rfl | he
            · exact absurd hv (List.not_mem_nil _)
            · exact hold e (List.mem_append_right _ (List.mem_cons_of_mem _ he)) v hv
    | parse argv =>
      simp only [run_call] at h
      cases hp : parse start argv with
      | none => rw [hp] at h; exact absurd h (by simp)
      | some p =>
        obtain ⟨o, r⟩ := p
        rw [hp] at h
        simp only at h
        refine ih _ (done ++ [call.parse argv]) options ?_ h
        intro e he v hv
        obtain ⟨ho, _⟩ := parse_some_closed start argv o r hp
        rw [ho] at he
        obtain ⟨e0, he0, rfl⟩ := List.mem_map.mp he
        rw [entry_after_values, List.mem_append] at hv
        rcases hv with hv | hv
        · exact value_of_calls_mono done _ v (fun c hc => List.mem_append_left _ hc)
            (hs e0 he0 v hv)
        · obtain ⟨h0, i, hi, hget⟩ := collected_values e0.first argv v hv
          exact ⟨h0, argv, by simp, i, hi, hget⟩

/-! ## Runs of parse that return -/

/-- The found flags after a run that returns.  On a registry on which parse has not
been called, whenever parse returns
(no read past the end of the argument vector), the registry holds the same
descriptors and the found flag of a registered descriptor is true if and only if
some token at an index from 1 on has a positive marker length and its text after
the marker is the short or the long name of the descriptor; the token at index 0
does not count. -/
theorem found_flag_iff_matched (options : opt_map) (argv : List String)
    (options' : opt_map) (res : result)
    (hfresh : fresh options) (h : parse options argv = some (options', res)) :
    keys options' = keys options ∧
    ∀ e' ∈ options', (e'.found = true ↔
      ∃ (i : Nat) (t : String), 1 ≤ i ∧ argv[i]? = some t ∧ 0 < is_option t ∧
        (substr_from t (is_option t) = e'.first.short_name ∨
         substr_from t (is_option t) = e'.first.long_name)) :=
  ⟨parse_keys options argv options' res h, fun e' he' =>
    (parse_found options argv options' res hfresh h e' he').trans (matched_iff_index _ _)⟩

/-- Witness for `found_flag_iff_matched`: the registry of "h"/"help" and "f"/"file"
with the arguments `-f --help x`; the token at index 0 looks like the option "f"
and is not matched. -/
theorem found_flag_iff_matched_witness :
    fresh (parser_of name_order [help_option, file_option]) ∧
    parse (parser_of name_order [help_option, file_option]) ["-f", "--help", "x"] =
      some ([⟨file_option, [], false⟩, ⟨help_option, [], true⟩],
        ⟨[⟨file_option, requirement_error.option_not_found_error⟩]⟩) ∧
    (keys [⟨file_option, [], false⟩, ⟨help_option, [], true⟩] =
        keys (parser_of name_order [help_option, file_option]) ∧
      ∀ e' ∈ [(⟨file_option, [], false⟩ : entry), ⟨help_option, [], true⟩],
        (e'.found = true ↔
          ∃ (i : Nat) (t : String), 1 ≤ i ∧ ["-f", "--help", "x"][i]? = some t ∧
            0 < is_option t ∧
            (substr_from t (is_option t) = e'.first.short_name ∨
             substr_from t (is_option t) = e'.first.long_name))) :=
  ⟨by decide, by decide,
    found_flag_iff_matched (parser_of name_order [help_option, file_option])
      ["-f", "--help", "x"] [⟨file_option, [], false⟩, ⟨help_option, [], true⟩]
      ⟨[⟨file_option, requirement_error.option_not_found_error⟩]⟩ (by decide) (by decide)⟩

/-- The OPTION_NOT_FOUND errors of a run that returns.  On a registry on which parse
has not been called and whose map holds every
descriptor once, whenever parse returns: the error list has an OPTION_NOT_FOUND
error for a registered descriptor if and only if the descriptor is mandatory and no
token at an index from 1 on names it; it has at most one such error for the
descriptor; and every OPTION_NOT_FOUND error in it is for a registered mandatory
descriptor. -/
theorem option_not_found_iff (options : opt_map) (argv : List String)
    (options' : opt_map) (res : result)
    (hfresh : fresh options) (hkeys : (keys options).Nodup)
    (h : parse options argv = some (options', res)) :
    (∀ d ∈ keys options,
      ((⟨d, requirement_error.option_not_found_error⟩ : error) ∈ res.errors ↔
        d.type = option_type.mandatory_option ∧ ¬ matched d argv) ∧
      res.errors.count ⟨d, requirement_error.option_not_found_error⟩ ≤ 1) ∧
    (∀ err ∈ res.errors, err.kind = requirement_error.option_not_found_error →
      err.opt.type = option_type.mandatory_option ∧ err.opt ∈ keys options) := by
  have hk := parse_keys options argv options' res h
  have hfound := parse_found options argv options' res hfresh h
  obtain ⟨steps, s1, s2, s3, s4⟩ := parse_steps options argv options' res h
  have hphase1 : ∀ err ∈ (steps.map (fun s => s.2.2)).flatten,
      err.kind ≠ requirement_error.option_not_found_error := by
    intro err herr
    obtain ⟨l, hl, hmem⟩ := List.mem_flatten.mp herr
    obtain ⟨s, hs, rfl⟩ := List.mem_map.mp hl
    exact ((evaluate_entry_kinds argv s.1 s.2.1 s.2.2 (s4 s hs)).1 err hmem).2
  constructor
  · intro d hd
    constructor
    · constructor
      · intro hmem
        obtain ⟨_, hcases⟩ := parse_error_cases options argv options' res h _ hmem
        rcases hcases with ⟨hkind, _⟩ | ⟨hkind, _⟩ | ⟨hkind, _⟩ | ⟨_, hm, v, hv, hvd, hvf⟩
        · exact absurd hkind (by simp)
        · exact absurd hkind (by simp)
        · exact absurd hkind (by simp)
        · refine ⟨hm, fun hmatch => ?_⟩
          have := (hfound v hv).mpr (by rw [hvd]; exact hmatch)
          rw [hvf] at this
          exact absurd this (by simp)
      · rintro ⟨hm, hnot⟩
        rw [← hk] at hd
        obtain ⟨v, hv, hvd⟩ := List.mem_map.mp hd
        have hvf : v.found = false := by
          rw [← Bool.not_eq_true]
          intro hf
          exact hnot (by rw [← hvd]; exact (hfound v hv).mp hf)
        rw [s3, List.mem_append]
        right
        unfold not_found_errors
        refine List.mem_map.mpr ⟨v, List.mem_filter.mpr ⟨hv, ?_⟩, by rw [hvd]⟩
        simp [hvd, hm, hvf]
    · rw [s3, List.count_append,
        List.count_eq_zero_of_not_mem (fun hmem => hphase1 _ hmem rfl), Nat.zero_add]
      refine le_trans (count_not_found_errors d options') ?_
      rw [hk]
      exact List.nodup_iff_count_le_one.mp hkeys d
  · intro err herr hkind
    obtain ⟨hin, hcases⟩ := parse_error_cases options argv options' res h err herr
    rcases hcases with ⟨hk2, _⟩ | ⟨hk2, _⟩ | ⟨hk2, _⟩ | ⟨_, hm, _⟩
    · rw [hk2] at hkind; exact absurd hkind (by simp)
    · rw [hk2] at hkind; exact absurd hkind (by simp)
    · rw [hk2] at hkind; exact absurd hkind (by simp)
    · exact ⟨hm, hin⟩

/-- Witness for `option_not_found_iff`: the mandatory "f"/"file" is not named by
`--help`. -/
theorem option_not_found_iff_witness :
    fresh (parser_of name_order [help_option, file_option]) ∧
    (keys (parser_of name_order [help_option, file_option])).Nodup ∧
    parse (parser_of name_order [help_option, file_option]) ["prog", "--help"] =
      some ([⟨file_option, [], false⟩, ⟨help_option, [], true⟩],
        ⟨[⟨file_option, requirement_error.option_not_found_error⟩]⟩) ∧
    (((⟨file_option, requirement_error.option_not_found_error⟩ : error) ∈
        [(⟨file_option, requirement_error.option_not_found_error⟩ : error)] ↔
        file_option.type = option_type.mandatory_option ∧
          ¬ matched file_option ["prog", "--help"]) ∧
      [(⟨file_option, requirement_error.option_not_found_error⟩ : error)].count
        ⟨file_option, requirement_error.option_not_found_error⟩ ≤ 1) :=
  ⟨by decide, by decide, by decide,
    (option_not_found_iff (parser_of name_order [help_option, file_option])
      ["prog", "--help"] [⟨file_option, [], false⟩, ⟨help_option, [], true⟩]
      ⟨[⟨file_option, requirement_error.option_not_found_error⟩]⟩
      (by decide) (by decide) (by decide)).1 file_option (by decide)⟩

/-- The OPTION_HAS_NO_NAMES errors of a run that returns.  For every registry whose
map holds every descriptor once and every argument
vector, whenever parse returns: the error list has exactly one OPTION_HAS_NO_NAMES
error for every registered descriptor whose short and long name are both empty,
whether or not a token names it; and every OPTION_HAS_NO_NAMES error in the list is
for a descriptor whose names are both empty. -/
theorem option_has_no_names_once (options : opt_map) (argv : List String)
    (options' : opt_map) (res : result)
    (hkeys : (keys options).Nodup) (h : parse options argv = some (options', res)) :
    (∀ d ∈ keys options, d.short_name = "" → d.long_name = "" →
      res.errors.count ⟨d, requirement_error.option_has_no_names_error⟩ = 1) ∧
    (∀ err ∈ res.errors, err.kind = requirement_error.option_has_no_names_error →
      err.opt.short_name = "" ∧ err.opt.long_name = "") := by
  constructor
  · intro d hd hs hl
    obtain ⟨steps, s1, s2, s3, s4⟩ := parse_steps options argv options' res h
    rw [s3, List.count_append, count_names_error_steps argv d ⟨hs, hl⟩ steps s4, ← s1]
    have h2 : (not_found_errors options').count
        ⟨d, requirement_error.option_has_no_names_error⟩ = 0 := by
      apply List.count_eq_zero_of_not_mem
      intro hmem
      unfold not_found_errors at hmem
      obtain ⟨v, _, hv⟩ := List.mem_map.mp hmem
      simp at hv
    rw [h2, Nat.add_zero]
    exact List.count_eq_one_of_mem hkeys hd
  · intro err herr hkind
    obtain ⟨_, hcases⟩ := parse_error_cases options argv options' res h err herr
    rcases hcases with ⟨_, hn⟩ | ⟨hk2, _⟩ | ⟨hk2, _⟩ | ⟨hk2, _⟩
    · exact hn
    · rw [hk2] at hkind; exact absurd hkind (by simp)
    · rw [hk2] at hkind; exact absurd hkind (by simp)
    · rw [hk2] at hkind; exact absurd hkind (by simp)

/-- Witness for `option_has_no_names_once`: one argument vector without tokens and
one in which the token `-` names the descriptor without names. -/
theorem option_has_no_names_once_witness :
    (keys (parser_of name_order [nameless_option, help_option])).Nodup ∧
    parse (parser_of name_order [nameless_option, help_option]) ["prog"] =
      some ([⟨nameless_option, [], false⟩, ⟨help_option, [], false⟩],
        ⟨[⟨nameless_option, requirement_error.option_has_no_names_error⟩]⟩) ∧
    parse (parser_of name_order [nameless_option, help_option]) ["prog", "-", "--help"] =
      some ([⟨nameless_option, [], true⟩, ⟨help_option, [], true⟩],
        ⟨[⟨nameless_option, requirement_error.option_has_no_names_error⟩]⟩) ∧
    [(⟨nameless_option, requirement_error.option_has_no_names_error⟩ : error)].count
      ⟨nameless_option, requirement_error.option_has_no_names_error⟩ = 1 ∧
    [(⟨nameless_option, requirement_error.option_has_no_names_error⟩ : error)].count
      ⟨nameless_option, requirement_error.option_has_no_names_error⟩ = 1 :=
  ⟨by decide, by decide, by decide,
    (option_has_no_names_once (parser_of name_order [nameless_option, help_option])
      ["prog"] [⟨nameless_option, [], false⟩, ⟨help_option, [], false⟩]
      ⟨[⟨nameless_option, requirement_error.option_has_no_names_error⟩]⟩
      (by decide) (by decide)).1 nameless_option (by decide) rfl rfl,
    (option_has_no_names_once (parser_of name_order [nameless_option, help_option])
      ["prog", "-", "--help"] [⟨nameless_option, [], true⟩, ⟨help_option, [], true⟩]
      ⟨[⟨nameless_option, requirement_error.option_has_no_names_error⟩]⟩
      (by decide) (by decide)).1 nameless_option (by decide) rfl rfl⟩

/-- The order of the errors.  The error list of a run of parse that returns is the
errors of the first
phase followed by the errors of the second phase.  The first phase gives, for each
descriptor in iteration order, the OPTION_HAS_NO_NAMES error if both names are
empty and then at most one value error for that descriptor; these depend on the
descriptor and the argument vector only, not on the other descriptors or their
errors.  The second phase gives the OPTION_NOT_FOUND errors in iteration order. -/
theorem errors_in_order (options : opt_map) (argv : List String)
    (options' : opt_map) (res : result) (h : parse options argv = some (options', res)) :
    res.errors =
      (options.map (fun e => phase_one_errors e.first argv)).flatten ++
      (options'.filter (fun value =>
        decide (value.first.type = option_type.mandatory_option) && !value.found)).map
        (fun value => ⟨value.first, requirement_error.option_not_found_error⟩) ∧
    (∀ d : option, ∃ v, phase_one_errors d argv =
        (if d.short_name = "" ∧ d.long_name = "" then
          [⟨d, requirement_error.option_has_no_names_error⟩] else []) ++ v ∧
      v.length ≤ 1 ∧
      ∀ x ∈ v, x.opt = d ∧ (x.kind = requirement_error.not_enough_values_error ∨
        x.kind = requirement_error.invalid_value_constraint_error)) := by
  obtain ⟨h1, h2⟩ := parse_some_closed options argv options' res h
  refine ⟨?_, fun d => phase_one_errors_shape d argv⟩
  rw [h2, ← h1]
  rfl

/-- Witness for `errors_in_order`: a descriptor without names, a mandatory
"f"/"file" that is not named and an EXACT(2) "p"/"pair" whose value run is cut by a
marker, in this iteration order: three errors, the value error of "pair" before
the OPTION_NOT_FOUND error of "file". -/
theorem errors_in_order_witness :
    parse (parser_of name_order [pair_option, nameless_option, file_option])
        ["prog", "--pair", "a", "-v"] =
      some ([⟨nameless_option, [], false⟩, ⟨file_option, [], false⟩,
          ⟨pair_option, ["a"], true⟩],
        ⟨[⟨nameless_option, requirement_error.option_has_no_names_error⟩,
          ⟨pair_option, requirement_error.not_enough_values_error⟩,
          ⟨file_option, requirement_error.option_not_found_error⟩]⟩) ∧
    [(⟨nameless_option, requirement_error.option_has_no_names_error⟩ : error),
        ⟨pair_option, requirement_error.not_enough_values_error⟩,
        ⟨file_option, requirement_error.option_not_found_error⟩] =
      ((parser_of name_order [pair_option, nameless_option, file_option]).map
        (fun e => phase_one_errors e.first ["prog", "--pair", "a", "-v"])).flatten ++
      (([⟨nameless_option, [], false⟩, ⟨file_option, [], false⟩,
          ⟨pair_option, ["a"], true⟩] : opt_map).filter (fun value =>
        decide (value.first.type = option_type.mandatory_option) && !value.found)).map
        (fun value => ⟨value.first, requirement_error.option_not_found_error⟩) :=
  ⟨by decide,
    (errors_in_order (parser_of name_order [pair_option, nameless_option, file_option])
      ["prog", "--pair", "a", "-v"]
      [⟨nameless_option, [], false⟩, ⟨file_option, [], false⟩, ⟨pair_option, ["a"], true⟩]
      ⟨[⟨nameless_option, requirement_error.option_has_no_names_error⟩,
        ⟨pair_option, requirement_error.not_enough_values_error⟩,
        ⟨file_option, requirement_error.option_not_found_error⟩]⟩ (by decide)).1⟩

/-- The first occurrence in a run that returns.  Only the first occurrence of an
option is honoured.  On a registry not
parsed before, for a run of parse that returns, and for an argument vector in which
the first token naming a descriptor is followed by the tokens `mid`, a later token
naming the same descriptor and the tokens `rest`: the values of the descriptor are
the marker-free run at the front of `mid`, cut to the number of values asked for
(all of them for UNLIMITED); they are tokens of `mid`; and there is a value error
(NOT_ENOUGH_VALUES or INVALID_VALUE_CONSTRAINT) for the descriptor exactly when the
constraint switch pushes it for the number of values read from `mid`.  The tokens
`rest` after the later occurrence play no part. -/
theorem first_occurrence_only (options : opt_map) (argv : List String)
    (options' : opt_map) (res : result)
    (hfresh : fresh options) (h : parse options argv = some (options', res)) :
    ∀ e' ∈ options', ∀ (pre : List String) (t : String) (mid : List String) (t2 : String)
      (rest : List String),
      argv.drop 1 = pre ++ t :: (mid ++ t2 :: rest) →
      (∀ x ∈ pre, ¬ names_token e'.first x) → names_token e'.first t →
      names_token e'.first t2 →
      e'.values = (if e'.first.constraint = value_constraint.no_values then []
        else (value_run mid).take (wanted e'.first mid)) ∧
      (∀ x ∈ e'.values, x ∈ mid) ∧
      (∀ k : requirement_error,
        k = requirement_error.not_enough_values_error ∨
          k = requirement_error.invalid_value_constraint_error →
        ((⟨e'.first, k⟩ : error) ∈ res.errors ↔
          (⟨e'.first, k⟩ : error) ∈
            value_error e'.first (min (wanted e'.first mid) (value_run mid).length))) := by
  intro e' he' pre t mid t2 rest hsplit hpre ht ht2
  have hmark : is_option t2 ≠ 0 := by have := ht2.1; omega
  have hfm : first_match e'.first argv pre t (mid ++ t2 :: rest) := ⟨hsplit, hpre, ht⟩
  have hta := tokens_after_of_first_match _ _ _ _ _ hfm
  have hcut := take_wanted_cut e'.first mid t2 rest hmark
  have hval := parse_values_fresh options argv options' res hfresh h e' he'
  have hk : e'.first ∈ keys options := by
    rw [← parse_keys options argv options' res h]
    exact List.mem_map.mpr ⟨e', he', rfl⟩
  have hvals : e'.values = (if e'.first.constraint = value_constraint.no_values then []
      else (value_run mid).take (wanted e'.first mid)) := by
    rw [hval]
    unfold collected
    rw [hta]
    simp only []
    rw [hcut.1]
  refine ⟨hvals, ?_, ?_⟩
  · intro x hx
    rw [hvals] at hx
    split at hx
    · exact absurd hx (List.not_mem_nil _)
    · exact value_run_subset mid x (List.mem_of_mem_take hx)
  · intro k hkind
    rw [parse_value_error_iff options argv options' res h k hkind e'.first hk, hta]
    simp only [Option.some.injEq, exists_eq_left']
    rw [hcut.2]

/-- Witness for `first_occurrence_only`: UNLIMITED "f"/"file" with `-f a -f b`
collects a only. -/
theorem first_occurrence_only_witness :
    fresh (parser_of name_order [file_option]) ∧
    parse (parser_of name_order [file_option]) ["prog", "-f", "a", "-f", "b"] =
      some ([⟨file_option, ["a"], true⟩], ⟨[]⟩) ∧
    (["a"] = (if file_option.constraint = value_constraint.no_values then []
        else (value_run ["a"]).take (wanted file_option ["a"])) ∧
      (∀ x ∈ ["a"], x ∈ ["a"]) ∧
      (∀ k : requirement_error,
        k = requirement_error.not_enough_values_error ∨
          k = requirement_error.invalid_value_constraint_error →
        ((⟨file_option, k⟩ : error) ∈ ([] : List error) ↔
          (⟨file_option, k⟩ : error) ∈
            value_error file_option
              (min (wanted file_option ["a"]) (value_run ["a"]).length)))) :=
  ⟨by decide, by decide,
    first_occurrence_only (parser_of name_order [file_option])
      ["prog", "-f", "a", "-f", "b"] [⟨file_option, ["a"], true⟩] ⟨[]⟩
      (by decide) (by decide) ⟨file_option, ["a"], true⟩ (List.mem_singleton.mpr rfl)
      [] "-f" ["a"] "-f" ["b"] (by decide) (by decide) (by decide) (by decide)⟩

/-- The scenario with the long names "verbose" and "out" only, for every key order
of the map: both short names
are empty, so the second registration is refused by `is_opt_known` and "out" is not
in the registry; parse of `--verbose` then finds "verbose" without values and
returns an empty error list, without an OPTION_NOT_FOUND error for "out". -/
theorem scenario_verbose_out (lt : option → option → Bool) :
    add_option lt [] verbose_option = (true, [⟨verbose_option, [], false⟩]) ∧
    add_option lt [⟨verbose_option, [], false⟩] out_option =
      (false, [⟨verbose_option, [], false⟩]) ∧
    parser_of lt [verbose_option, out_option] = [⟨verbose_option, [], false⟩] ∧
    parse (parser_of lt [verbose_option, out_option]) ["prog", "--verbose"] =
      some ([⟨verbose_option, [], true⟩], ⟨[]⟩) ∧
    has_option [⟨verbose_option, [], true⟩] "verbose" = true ∧
    values_from_option [⟨verbose_option, [], true⟩] "verbose" = [] :=
  ⟨rfl, rfl, rfl, rfl, rfl, rfl⟩

/-- C1. `add_option(d)`: when a registered descriptor has a short or long name equal
to the short or the long name of `d`, the call returns false and the registry is
the same as before (descriptors, values and found flags); otherwise it returns true
and the registry is the old one with one more entry, `d` with an empty value list
and found = false, put in somewhere in the iteration order, all other entries as
they were.  The key order `lt` of the map is any order that separates descriptors
without a common name. -/
theorem add_option_contract (lt : option → option → Bool) (hlt : separates_names lt)
    (options : opt_map) (d : option) :
    ((∃ e ∈ options, shares_name e.first d) → add_option lt options d = (false, options)) ∧
    ((¬ ∃ e ∈ options, shares_name e.first d) →
      (add_option lt options d).1 = true ∧
      ∃ l1 l2, options = l1 ++ l2 ∧
        (add_option lt options d).2 = l1 ++ ⟨d, [], false⟩ :: l2) := by
  constructor
  · intro h
    have hk := (is_opt_known_iff options d).mpr h
    simp [add_option, hk]
  · intro h
    have hk : is_opt_known options d.short_name d.long_name = false := by
      rw [← Bool.not_eq_true, is_opt_known_iff]; exact h
    simp only [add_option, hk, Bool.false_eq_true, if_false, true_and]
    exact map_assign_new lt hlt d options (fun e he hs => h ⟨e, he, hs⟩)

/-- Witness for `add_option_contract`: a second descriptor with an empty short name
is refused, a descriptor with two new names is put in. -/
theorem add_option_contract_witness :
    separates_names name_order ∧
    add_option name_order [⟨verbose_option, [], true⟩] out_option =
      (false, [⟨verbose_option, [], true⟩]) ∧
    ((add_option name_order [⟨verbose_option, [], true⟩] help_option).1 = true ∧
      ∃ l1 l2, [(⟨verbose_option, [], true⟩ : entry)] = l1 ++ l2 ∧
        (add_option name_order [⟨verbose_option, [], true⟩] help_option).2 =
          l1 ++ ⟨help_option, [], false⟩ :: l2) :=
  ⟨separates_names_name_order,
    (add_option_contract name_order separates_names_name_order
      [⟨verbose_option, [], true⟩] out_option).1
      ⟨⟨verbose_option, [], true⟩, List.mem_singleton.mpr rfl, Or.inl rfl⟩,
    (add_option_contract name_order separates_names_name_order
      [⟨verbose_option, [], true⟩] help_option).2 (by decide)⟩

/-- C2. The registry of "a"/"alpha" (EXACT(1)) and "b"/"beta" (NONE), iterated in
this order, with the arguments `-b -a`: the token `-b` at index 1 names "beta", so
the claim has its found flag true after parse.  The round for "alpha" comes first,
matches `-a` as the last token and reads `argv[argc]`: it has no result, the round
for "beta" (which on its own sets the flag) is not reached, and parse leaves no
state in which the flag is set.  With a value after `-a` both flags are set. -/
theorem found_flag_lost_by_overrun :
    parser_of name_order [alpha_option, beta_option] =
      [⟨alpha_option, [], false⟩, ⟨beta_option, [], false⟩] ∧
    matched beta_option ["prog", "-b", "-a"] ∧
    evaluate_entry ["prog", "-b", "-a"] ⟨alpha_option, [], false⟩ ⟨[]⟩ = none ∧
    evaluate_entry ["prog", "-b", "-a"] ⟨beta_option, [], false⟩ ⟨[]⟩ =
      some (⟨beta_option, [], true⟩, ⟨[]⟩) ∧
    parse (parser_of name_order [alpha_option, beta_option]) ["prog", "-b", "-a"] = none ∧
    parse (parser_of name_order [alpha_option, beta_option]) ["prog", "-b", "-a", "x"] =
      some ([⟨alpha_option, ["x"], true⟩, ⟨beta_option, [], true⟩], ⟨[]⟩) := by
  decide

/-- C3. The two examples of the claim hold: UP_TO(3) with `--opt a b -x c` collects
a, b, and UNLIMITED "f" with `-f a b c` collects a, b, c without an error.  When
the run of values is ended by the end of the argument vector before the n of
UP_TO(n) is reached, `read` goes on to `argv[argc]` and parse has no result: with
`--opt a b` the values a, b are not returned. -/
theorem values_run_cut_by_end (lt : option → option → Bool) :
    parse (parser_of lt [opt_option]) ["prog", "--opt", "a", "b", "-x", "c"] =
      some ([⟨opt_option, ["a", "b"], true⟩], ⟨[]⟩) ∧
    parse (parser_of lt [f_option]) ["prog", "-f", "a", "b", "c"] =
      some ([⟨f_option, ["a", "b", "c"], true⟩], ⟨[]⟩) ∧
    parse (parser_of lt [opt_option]) ["prog", "--opt", "a", "b"] = none :=
  ⟨rfl, rfl, rfl⟩

/-- C4. EXACT(1) with the option as the last token: `read` is asked for one value
and reads `argv[argc]`, so parse has no result and no NOT_ENOUGH_VALUES error is
returned; when an option marker follows instead, the error is returned. -/
theorem exact_at_end_of_args (lt : option → option → Bool) :
    parse (parser_of lt [out_option]) ["prog", "--out"] = none ∧
    parse (parser_of lt [out_option]) ["prog", "--out", "-v"] =
      some ([⟨out_option, [], true⟩],
        ⟨[⟨out_option, requirement_error.not_enough_values_error⟩]⟩) ∧
    parse (parser_of lt [out_option]) ["prog", "--out", "a"] =
      some ([⟨out_option, ["a"], true⟩], ⟨[]⟩) :=
  ⟨rfl, rfl, rfl⟩

/-- C5. The example of the claim holds: UNLIMITED mandatory "f" with `-f` alone gives
found = true, no values and a NOT_ENOUGH_VALUES error.  For UP_TO(3) the same
command line shape has no result: `read` is asked for three values and reads
`argv[argc]`, so the error for zero values is not returned. -/
theorem up_to_at_end_of_args (lt : option → option → Bool) :
    parse (parser_of lt [f_option]) ["prog", "-f"] =
      some ([⟨f_option, [], true⟩],
        ⟨[⟨f_option, requirement_error.not_enough_values_error⟩]⟩) ∧
    parse (parser_of lt [opt_option]) ["prog", "--opt", "-x"] =
      some ([⟨opt_option, [], true⟩],
        ⟨[⟨opt_option, requirement_error.not_enough_values_error⟩]⟩) ∧
    parse (parser_of lt [opt_option]) ["prog", "--opt"] = none :=
  ⟨rfl, rfl, rfl⟩

/-- C6. For every descriptor with constraint NONE and every argument vector, a run
of parse that returns leaves the value list of the descriptor as it was, and its
error list has no NOT_ENOUGH_VALUES and no INVALID_VALUE_CONSTRAINT error for a
descriptor with constraint NONE; on a registry not parsed before, in which no two
descriptors have a name in common, values_from_option of either name of the
descriptor is empty after the run. -/
theorem no_values_consumed (options : opt_map) (argv : List String)
    (options' : opt_map) (res : result) (h : parse options argv = some (options', res)) :
    List.Forall₂ (fun (e e' : entry) => e'.first = e.first ∧
      (e.first.constraint = value_constraint.no_values → e'.values = e.values))
      options options' ∧
    (∀ err ∈ res.errors, err.opt.constraint = value_constraint.no_values →
      err.kind ≠ requirement_error.not_enough_values_error ∧
      err.kind ≠ requirement_error.invalid_value_constraint_error) ∧
    (fresh options → names_disjoint options →
      ∀ d ∈ keys options, d.constraint = value_constraint.no_values →
        values_from_option options' d.short_name = [] ∧
        values_from_option options' d.long_name = []) := by
  refine ⟨parse_no_values_entries options argv options' res h, ?_, ?_⟩
  · intro err herr hc
    obtain ⟨_, hcases⟩ := parse_error_cases options argv options' res h err herr
    rcases hcases with ⟨hk, _⟩ | ⟨_, _, hn⟩ | ⟨_, _, hn⟩ | ⟨hk, _⟩
    · rw [hk]; exact ⟨by simp, by simp⟩
    · exact absurd hc hn
    · exact absurd hc hn
    · rw [hk]; exact ⟨by simp, by simp⟩
  · intro hfresh hdis d hd hc
    have hkeys := parse_keys options argv options' res h
    have hdis' : names_disjoint options' := by
      unfold names_disjoint; rw [hkeys]; exact hdis
    have key : ∀ name : String, (name = d.short_name ∨ name = d.long_name) →
        values_from_option options' name = [] := by
      intro name hname
      rcases find_option_spec options' name with ⟨hnone, _⟩ | ⟨l1, e', l2, hsome, hsplit, _, hn', _⟩
      · simp [values_from_option, hnone]
      · have hmem : e' ∈ options' := by rw [hsplit]; simp
        have hshare : shares_name e'.first d := by
          unfold shares_name
          rcases hn' with h1 | h1 <;> rcases hname with h2 | h2
          · exact Or.inl (h1.symm.trans h2)
          · exact Or.inr (Or.inl (h1.symm.trans h2))
          · exact Or.inr (Or.inr (Or.inl (h1.symm.trans h2)))
          · exact Or.inr (Or.inr (Or.inr (h1.symm.trans h2)))
        have heq : e'.first = d :=
          names_disjoint_eq options' hdis' e'.first d (List.mem_map.mpr ⟨e', hmem, rfl⟩)
            (by rw [hkeys]; exact hd) hshare
        obtain ⟨e, he, errs, hrun⟩ := parse_entry_origin options argv options' res h e' hmem
        obtain ⟨p1, _, ve, _, _, _, hnone⟩ := evaluate_entry_post argv e e' errs hrun
        have hce : e.first.constraint = value_constraint.no_values := by
          rw [← p1, heq]; exact hc
        simp only [values_from_option, hsome]
        rw [(hnone hce).2]
        exact (hfresh e he).1
    exact ⟨key _ (Or.inl rfl), key _ (Or.inr rfl)⟩

/-- Witness for `no_values_consumed`: the tokens a, b after `--help` are not
collected. -/
theorem no_values_consumed_witness :
    parse (parser_of name_order [help_option, file_option])
        ["prog", "--help", "a", "b", "-f", "c"] =
      some ([⟨file_option, ["c"], true⟩, ⟨help_option, [], true⟩], ⟨[]⟩) ∧
    fresh (parser_of name_order [help_option, file_option]) ∧
    names_disjoint (parser_of name_order [help_option, file_option]) ∧
    values_from_option [⟨file_option, ["c"], true⟩, ⟨help_option, [], true⟩] "h" = [] ∧
    values_from_option [⟨file_option, ["c"], true⟩, ⟨help_option, [], true⟩] "help" = [] :=
  ⟨by decide, by decide, by decide,
    (no_values_consumed (parser_of name_order [help_option, file_option])
      ["prog", "--help", "a", "b", "-f", "c"]
      [⟨file_option, ["c"], true⟩, ⟨help_option, [], true⟩] ⟨[]⟩ (by decide)).2.2
      (by decide) (by decide) help_option (by decide) rfl⟩

/-- C7. The registry of "a"/"alpha" (EXACT(1)) and the mandatory "b"/"beta" with the
arguments `-a`: no token names "beta", so the claim has an OPTION_NOT_FOUND error
for it in the returned list.  The round for "alpha" reads `argv[argc]` and has no
result, the second phase is not reached and parse returns no error list.  With a
value after `-a` the error is returned. -/
theorem not_found_lost_by_overrun :
    beta_option.type = option_type.mandatory_option ∧
    ¬ matched beta_option ["prog", "-a"] ∧
    evaluate_values (parser_of name_order [alpha_option, beta_option]) ["prog", "-a"] = none ∧
    parse (parser_of name_order [alpha_option, beta_option]) ["prog", "-a"] = none ∧
    parse (parser_of name_order [alpha_option, beta_option]) ["prog", "-a", "x"] =
      some ([⟨alpha_option, ["x"], true⟩, ⟨beta_option, [], false⟩],
        ⟨[⟨beta_option, requirement_error.option_not_found_error⟩]⟩) := by
  decide

/-- C8. The registry of a descriptor without names and "p"/"pair" (EXACT(2)) with the
arguments `--pair a`: the round for the descriptor without names pushes its
OPTION_HAS_NO_NAMES error, then the round for "pair" reads `argv[argc]` and has no
result, so parse returns no error list and the error is lost.  With two values
after `--pair` the list has the error once. -/
theorem no_names_lost_by_overrun :
    parser_of name_order [nameless_option, pair_option] =
      [⟨nameless_option, [], false⟩, ⟨pair_option, [], false⟩] ∧
    evaluate_entry ["prog", "--pair", "a"] ⟨nameless_option, [], false⟩ ⟨[]⟩ =
      some (⟨nameless_option, [], false⟩,
        ⟨[⟨nameless_option, requirement_error.option_has_no_names_error⟩]⟩) ∧
    evaluate_entry ["prog", "--pair", "a"] ⟨pair_option, [], false⟩
      ⟨[⟨nameless_option, requirement_error.option_has_no_names_error⟩]⟩ = none ∧
    parse (parser_of name_order [nameless_option, pair_option]) ["prog", "--pair", "a"] =
      none ∧
    parse (parser_of name_order [nameless_option, pair_option])
        ["prog", "--pair", "a", "b"] =
      some ([⟨nameless_option, [], false⟩, ⟨pair_option, ["a", "b"], true⟩],
        ⟨[⟨nameless_option, requirement_error.option_has_no_names_error⟩]⟩) := by
  decide

/-- C10. For every registry state and every name: has_option(name) is true if and
only if some registered descriptor has its short or long name equal to name and
its found flag set; when it is true, values_from_option(name) is the value list, in
order, of the first such entry in iteration order (the only one when no two
descriptors have a name in common); when it is false, for an unregistered name as
for a registered descriptor whose found flag is unset, values_from_option(name) is
the empty sequence. -/
theorem query_contract (options : opt_map) (name : String) :
    (has_option options name = true ↔
      ∃ e ∈ options, (name = e.first.short_name ∨ name = e.first.long_name) ∧ e.found = true) ∧
    (has_option options name = true →
      ∃ l1 e l2, options = l1 ++ e :: l2 ∧
        (∀ x ∈ l1, ¬ ((name = x.first.short_name ∨ name = x.first.long_name) ∧ x.found = true)) ∧
        (name = e.first.short_name ∨ name = e.first.long_name) ∧ e.found = true ∧
        values_from_option options name = e.values) ∧
    (has_option options name = true → names_disjoint options →
      ∀ e ∈ options, (name = e.first.short_name ∨ name = e.first.long_name) →
        values_from_option options name = e.values) ∧
    (has_option options name = false → values_from_option options name = []) := by
  rcases find_option_spec options name with ⟨hnone, hall⟩ | ⟨l1, e, l2, hsome, hsplit, hl1, hname, hfound⟩
  · have hhas : has_option options name = false := by simp [has_option, hnone]
    refine ⟨?_, ?_, ?_, ?_⟩
    · rw [hhas]
      constructor
      · intro h; exact absurd h (by simp)
      · rintro ⟨e, he, hp⟩; exact absurd hp (hall e he)
    · intro h; rw [hhas] at h; exact absurd h (by simp)
    · intro h; rw [hhas] at h; exact absurd h (by simp)
    · intro _; simp [values_from_option, hnone]
  · have hhas : has_option options name = true := by simp [has_option, hsome]
    have hval : values_from_option options name = e.values := by
      simp [values_from_option, hsome]
    have hmem : e ∈ options := by rw [hsplit]; simp
    refine ⟨?_, ?_, ?_, ?_⟩
    · rw [hhas]
      constructor
      · intro _; exact ⟨e, hmem, hname, hfound⟩
      · intro _; rfl
    · intro _; exact ⟨l1, e, l2, hsplit, hl1, hname, hfound, hval⟩
    · intro _ hdis x hx hxname
      have hshare : shares_name x.first e.first := by
        unfold shares_name
        rcases hxname with h1 | h1 <;> rcases hname with h2 | h2
        · exact Or.inl (h1.symm.trans h2)
        · exact Or.inr (Or.inl (h1.symm.trans h2))
        · exact Or.inr (Or.inr (Or.inl (h1.symm.trans h2)))
        · exact Or.inr (Or.inr (Or.inr (h1.symm.trans h2)))
      have hkeys : x.first = e.first :=
        names_disjoint_eq options hdis x.first e.first
          (List.mem_map.mpr ⟨x, hx, rfl⟩) (List.mem_map.mpr ⟨e, hmem, rfl⟩) hshare
      have hxe : x = e :=
        List.inj_on_of_nodup_map (names_disjoint_nodup options hdis) hx hmem hkeys
      rw [hval, hxe]
    · intro h; rw [hhas] at h; exact absurd h (by simp)

/-- Witness for `query_contract`: a found descriptor and a registered one that was
not found. -/
theorem query_contract_witness :
    has_option [⟨file_option, ["c"], true⟩, ⟨help_option, [], false⟩] "file" = true ∧
    has_option [⟨file_option, ["c"], true⟩, ⟨help_option, [], false⟩] "help" = false ∧
    names_disjoint [⟨file_option, ["c"], true⟩, ⟨help_option, [], false⟩] ∧
    values_from_option [⟨file_option, ["c"], true⟩, ⟨help_option, [], false⟩] "file" =
      ["c"] ∧
    values_from_option [⟨file_option, ["c"], true⟩, ⟨help_option, [], false⟩] "help" = [] :=
  ⟨by decide, by decide, by decide,
    (query_contract [⟨file_option, ["c"], true⟩, ⟨help_option, [], false⟩] "file").2.2.1
      (by decide) (by decide) ⟨file_option, ["c"], true⟩ (by decide) (Or.inr rfl),
    (query_contract [⟨file_option, ["c"], true⟩, ⟨help_option, [], false⟩] "help").2.2.2
      (by decide)⟩

/-- C11, counterexample.  With the UNLIMITED mandatory "f"/"file": after parse of
`-f a` followed by parse of `-f b` the values are a, b, while parse of `-f b` alone
gives b; and after parse of `-f a` followed by parse of no tokens the option is
still found with the value a and the second error list is empty, while parse of no
tokens alone leaves it not found and reports OPTION_NOT_FOUND. -/
theorem parse_keeps_stale_state :
    parse (parser_of name_order [file_option]) ["prog", "-f", "a"] =
      some ([⟨file_option, ["a"], true⟩], ⟨[]⟩) ∧
    parse [⟨file_option, ["a"], true⟩] ["prog", "-f", "b"] =
      some ([⟨file_option, ["a", "b"], true⟩], ⟨[]⟩) ∧
    parse (parser_of name_order [file_option]) ["prog", "-f", "b"] =
      some ([⟨file_option, ["b"], true⟩], ⟨[]⟩) ∧
    values_from_option [⟨file_option, ["a", "b"], true⟩] "f" ≠
      values_from_option [⟨file_option, ["b"], true⟩] "f" ∧
    parse [⟨file_option, ["a"], true⟩] ["prog"] =
      some ([⟨file_option, ["a"], true⟩], ⟨[]⟩) ∧
    parse (parser_of name_order [file_option]) ["prog"] =
      some ([⟨file_option, [], false⟩],
        ⟨[⟨file_option, requirement_error.option_not_found_error⟩]⟩) ∧
    has_option [⟨file_option, ["a"], true⟩] "f" ≠ has_option [⟨file_option, [], false⟩] "f" ∧
    (⟨[]⟩ : result) ≠ ⟨[⟨file_option, requirement_error.option_not_found_error⟩]⟩ := by
  decide

/-- C11, as the code has it.  parse does not reset the runtime state.  For a registry
not parsed before in which no two descriptors have a name in common, and two
argument vectors A and B for which parse(A) and then parse(B) return: parse(B) alone
on the fresh registry returns too; after the two calls has_option of a name is true
when it is true after parse(A) or after parse(B) alone; values_from_option of a name
is the values after parse(A) followed by the values after parse(B) alone; and the
error list of the second call is the error list of parse(B) alone without the
OPTION_NOT_FOUND errors of the descriptors that a token of A names.  When no token
of A names a registered descriptor, the registry and the result of the second call
are those of parse(B) alone. -/
theorem parse_accumulates (options : opt_map) (argv_a argv_b : List String)
    (o1 : opt_map) (r1 : result) (o2 : opt_map) (r2 : result)
    (hfresh : fresh options) (hdis : names_disjoint options)
    (h1 : parse options argv_a = some (o1, r1)) (h2 : parse o1 argv_b = some (o2, r2)) :
    ∃ o3 r3, parse options argv_b = some (o3, r3) ∧
      (∀ name, has_option o2 name = (has_option o1 name || has_option o3 name)) ∧
      (∀ name, values_from_option o2 name =
        values_from_option o1 name ++ values_from_option o3 name) ∧
      r2.errors = r3.errors.filter (still_reported argv_a) ∧
      ((∀ d ∈ keys options, ¬ matched d argv_a) → o2 = o3 ∧ r2 = r3) := by
  obtain ⟨e1, _⟩ := parse_some_closed options argv_a o1 r1 h1
  obtain ⟨e2, f2⟩ := parse_some_closed o1 argv_b o2 r2 h2
  have hk1 : keys o1 = keys options := by rw [e1]; exact keys_map_entry_after _ _
  have hsafe : ∀ e ∈ options, ¬ overruns e.first argv_b :=
    parse_returns_of_keys o1 options argv_b hk1.symm (parse_some_safe o1 argv_b o2 r2 h2)
  have h3 := parse_closed options argv_b hsafe
  refine ⟨_, _, h3, ?_, ?_, ?_, ?_⟩
  · intro name
    rw [has_option_eq_any, has_option_eq_any, has_option_eq_any, e2, e1,
      List.map_map, List.any_map, List.any_map, List.any_map, ← any_or_distrib]
    apply any_congr_mem
    intro e he
    simp only [Function.comp, entry_after_first, entry_after_found, (hfresh e he).2]
    cases e.first.is_name_known name <;>
      cases (tokens_after e.first argv_a).isSome <;>
      cases (tokens_after e.first argv_b).isSome <;> rfl
  · intro name
    have hd1 : names_disjoint o1 := names_disjoint_of_keys options o1 hk1 hdis
    have hd2 : names_disjoint o2 :=
      names_disjoint_of_keys o1 o2 (by rw [e2]; exact keys_map_entry_after _ _) hd1
    have hd3 : names_disjoint (options.map (entry_after argv_b)) :=
      names_disjoint_of_keys options _ (keys_map_entry_after _ _) hdis
    by_cases hex : ∃ e ∈ options, e.first.is_name_known name = true
    · obtain ⟨e, he, hknows⟩ := hex
      have hv := (hfresh e he).1
      have hf := (hfresh e he).2
      have m1 : entry_after argv_a e ∈ o1 := by rw [e1]; exact List.mem_map_of_mem _ he
      have m2 : entry_after argv_b (entry_after argv_a e) ∈ o2 := by
        rw [e2]; exact List.mem_map_of_mem _ m1
      have m3 : entry_after argv_b e ∈ options.map (entry_after argv_b) :=
        List.mem_map_of_mem _ he
      rw [values_from_option_known o1 name _ hd1 m1 (by rw [entry_after_first]; exact hknows)
          (by
            intro hnf
            rw [entry_after_found, hf, Bool.false_or] at hnf
            rw [entry_after_values, hv, collected_of_not_matched _ _ hnf]; rfl),
        values_from_option_known o2 name _ hd2 m2
          (by rw [entry_after_first, entry_after_first]; exact hknows)
          (by
            intro hnf
            rw [entry_after_found, entry_after_first, entry_after_found, hf,
              Bool.false_or, Bool.or_eq_false_iff] at hnf
            rw [entry_after_values, entry_after_first, entry_after_values, hv,
              collected_of_not_matched _ _ hnf.1, collected_of_not_matched _ _ hnf.2]; rfl),
        values_from_option_known _ name _ hd3 m3 (by rw [entry_after_first]; exact hknows)
          (by
            intro hnf
            rw [entry_after_found, hf, Bool.false_or] at hnf
            rw [entry_after_values, hv, collected_of_not_matched _ _ hnf]; rfl)]
      simp only [entry_after_values, entry_after_first, hv, List.nil_append]
    · have hnone : ∀ (o : opt_map), keys o = keys options →
          ∀ x ∈ o, x.first.is_name_known name = false := by
        intro o hk x hx
        have : x.first ∈ keys options := by rw [← hk]; exact List.mem_map.mpr ⟨x, hx, rfl⟩
        obtain ⟨e, he, hex2⟩ := List.mem_map.mp this
        rw [← hex2, ← Bool.not_eq_true]
        intro hkn
        exact hex ⟨e, he, hkn⟩
      rw [values_from_option_unknown o1 name (hnone o1 hk1),
        values_from_option_unknown o2 name
          (hnone o2 (by rw [e2, keys_map_entry_after]; exact hk1)),
        values_from_option_unknown _ name (hnone _ (keys_map_entry_after _ _))]
      rfl
  · rw [f2, e1, phase_one_map_entry_after]
    simp only []
    rw [List.filter_append, not_found_errors_second_call argv_a argv_b options hfresh]
    congr 1
    symm
    rw [List.filter_eq_self]
    intro err herr
    obtain ⟨l, hl, hin⟩ := List.mem_flatten.mp herr
    obtain ⟨e, _, rfl⟩ := List.mem_map.mp hl
    exact phase_one_errors_still_reported e.first argv_b argv_a err hin
  · intro hno
    have ho1 : o1 = options := by
      rw [e1]
      conv_rhs => rw [← List.map_id options]
      apply List.map_congr_left
      intro e he
      exact entry_after_unmatched argv_a e (hno e.first (List.mem_map.mpr ⟨e, he, rfl⟩))
    rw [ho1, h3] at h2
    simp only [Option.some.injEq, Prod.mk.injEq] at h2
    exact ⟨h2.1.symm, h2.2.symm⟩

/-- Witness for `parse_accumulates`: "f"/"file" with A = `-f a` and B = `-f b`. -/
theorem parse_accumulates_witness :
    fresh (parser_of name_order [file_option]) ∧
    names_disjoint (parser_of name_order [file_option]) ∧
    parse (parser_of name_order [file_option]) ["prog", "-f", "a"] =
      some ([⟨file_option, ["a"], true⟩], ⟨[]⟩) ∧
    parse [⟨file_option, ["a"], true⟩] ["prog", "-f", "b"] =
      some ([⟨file_option, ["a", "b"], true⟩], ⟨[]⟩) ∧
    ∃ o3 r3, parse (parser_of name_order [file_option]) ["prog", "-f", "b"] = some (o3, r3) ∧
      (∀ name, has_option [⟨file_option, ["a", "b"], true⟩] name =
        (has_option [⟨file_option, ["a"], true⟩] name || has_option o3 name)) ∧
      (∀ name, values_from_option [⟨file_option, ["a", "b"], true⟩] name =
        values_from_option [⟨file_option, ["a"], true⟩] name ++ values_from_option o3 name) ∧
      (⟨[]⟩ : result).errors = r3.errors.filter (still_reported ["prog", "-f", "a"]) ∧
      ((∀ d ∈ keys (parser_of name_order [file_option]), ¬ matched d ["prog", "-f", "a"]) →
        [(⟨file_option, ["a", "b"], true⟩ : entry)] = o3 ∧ (⟨[]⟩ : result) = r3) :=
  ⟨by decide, by decide, by decide, by decide,
    parse_accumulates (parser_of name_order [file_option]) ["prog", "-f", "a"]
      ["prog", "-f", "b"] [⟨file_option, ["a"], true⟩] ⟨[]⟩
      [⟨file_option, ["a", "b"], true⟩] ⟨[]⟩ (by decide) (by decide) (by decide) (by decide)⟩

/-- C13. The registry of "a"/"alpha" (EXACT(1)) and the mandatory "b"/"beta" with the
arguments `--alpha`: the claim has the error list hold the errors of both
descriptors, the missing value of "alpha" not suppressing the OPTION_NOT_FOUND of
"beta".  The round for "alpha" reads `argv[argc]` and has no result, so neither
error is returned.  When an option marker ends the run instead, both errors are
returned, the value error first. -/
theorem errors_suppressed_by_overrun :
    evaluate_entry ["prog", "--alpha"] ⟨alpha_option, [], false⟩ ⟨[]⟩ = none ∧
    parse [⟨beta_option, [], false⟩] ["prog", "--alpha"] =
      some ([⟨beta_option, [], false⟩],
        ⟨[⟨beta_option, requirement_error.option_not_found_error⟩]⟩) ∧
    parse (parser_of name_order [alpha_option, beta_option]) ["prog", "--alpha"] = none ∧
    parse (parser_of name_order [alpha_option, beta_option]) ["prog", "--alpha", "-x"] =
      some ([⟨alpha_option, [], true⟩, ⟨beta_option, [], false⟩],
        ⟨[⟨alpha_option, requirement_error.not_enough_values_error⟩,
          ⟨beta_option, requirement_error.option_not_found_error⟩]⟩) := by
  decide

/-- C14. The registry of "a"/"alpha" (EXACT(1)) and the UNLIMITED "f"/"file" with the
arguments `-f x -f y -a`: the marker of "file" occurs twice and the claim has its
values be x, from the first occurrence alone.  The round for "alpha" comes first,
matches `-a` as the last token and reads `argv[argc]`: it has no result, and the
values of "file" (x, when its round runs on its own) are not returned.  With a
value after `-a` the values of "file" are x. -/
theorem first_run_lost_by_overrun :
    parser_of name_order [alpha_option, file_option] =
      [⟨alpha_option, [], false⟩, ⟨file_option, [], false⟩] ∧
    evaluate_entry ["prog", "-f", "x", "-f", "y", "-a"] ⟨file_option, [], false⟩ ⟨[]⟩ =
      some (⟨file_option, ["x"], true⟩, ⟨[]⟩) ∧
    evaluate_entry ["prog", "-f", "x", "-f", "y", "-a"] ⟨alpha_option, [], false⟩ ⟨[]⟩ =
      none ∧
    parse (parser_of name_order [alpha_option, file_option])
        ["prog", "-f", "x", "-f", "y", "-a"] = none ∧
    parse (parser_of name_order [alpha_option, file_option])
        ["prog", "-f", "x", "-f", "y", "-a", "v"] =
      some ([⟨alpha_option, ["v"], true⟩, ⟨file_option, ["x"], true⟩], ⟨[]⟩) := by
  decide

/-- C15. `is_opt_known(short_name, long_name)` is true if and only if some registered
descriptor has a short name or a long name equal to `short_name` or to `long_name`
(all four combinations); so a new short name equal to a registered long name is
known, and so is an empty input name when a registered descriptor has an empty
name field. -/
theorem is_opt_known_four_way (options : opt_map) (short_name long_name : String) :
    (is_opt_known options short_name long_name = true ↔
      ∃ e ∈ options, e.first.short_name = short_name ∨ e.first.long_name = short_name ∨
        e.first.short_name = long_name ∨ e.first.long_name = long_name) ∧
    ((∃ e ∈ options, e.first.long_name = short_name) →
      is_opt_known options short_name long_name = true) ∧
    ((∃ e ∈ options, e.first.short_name = "" ∨ e.first.long_name = "") →
      is_opt_known options "" long_name = true ∧ is_opt_known options short_name "" = true) := by
  have main : ∀ s l : String, is_opt_known options s l = true ↔
      ∃ e ∈ options, e.first.short_name = s ∨ e.first.long_name = s ∨
        e.first.short_name = l ∨ e.first.long_name = l := by
    intro s l
    simp only [is_opt_known, List.any_eq_true, option.is_name_known, Bool.or_eq_true,
      decide_eq_true_eq]
    constructor
    · rintro ⟨e, he, h⟩
      refine ⟨e, he, ?_⟩
      rcases h with (h | h) | (h | h)
      · exact Or.inl h.symm
      · exact Or.inr (Or.inl h.symm)
      · exact Or.inr (Or.inr (Or.inl h.symm))
      · exact Or.inr (Or.inr (Or.inr h.symm))
    · rintro ⟨e, he, h⟩
      refine ⟨e, he, ?_⟩
      rcases h with h | h | h | h
      · exact Or.inl (Or.inl h.symm)
      · exact Or.inl (Or.inr h.symm)
      · exact Or.inr (Or.inl h.symm)
      · exact Or.inr (Or.inr h.symm)
  refine ⟨main short_name long_name, ?_, ?_⟩
  · rintro ⟨e, he, h⟩
    exact (main _ _).mpr ⟨e, he, Or.inr (Or.inl h)⟩
  · rintro ⟨e, he, h⟩
    constructor
    · refine (main _ _).mpr ⟨e, he, ?_⟩
      rcases h with h | h
      · exact Or.inl h
      · exact Or.inr (Or.inl h)
    · refine (main _ _).mpr ⟨e, he, ?_⟩
      rcases h with h | h
      · exact Or.inr (Or.inr (Or.inl h))
      · exact Or.inr (Or.inr (Or.inr h))

/-- Witness for `is_opt_known_four_way`: with "f"/"file" registered, the new short
name "file" is known; with the long-only "verbose" registered, an empty name is
known. -/
theorem is_opt_known_four_way_witness :
    is_opt_known [⟨file_option, [], false⟩] "file" "other" = true ∧
    (is_opt_known [⟨verbose_option, [], false⟩] "" "out" = true ∧
      is_opt_known [⟨verbose_option, [], false⟩] "o" "" = true) ∧
    is_opt_known [⟨file_option, [], false⟩] "x" "other" = false :=
  ⟨(is_opt_known_four_way [⟨file_option, [], false⟩] "file" "other").2.1
      ⟨⟨file_option, [], false⟩, List.mem_singleton.mpr rfl, rfl⟩,
    (is_opt_known_four_way [⟨verbose_option, [], false⟩] "o" "out").2.2
      ⟨⟨verbose_option, [], false⟩, List.mem_singleton.mpr rfl, Or.inl rfl⟩,
    by decide⟩

/-- C16. `is_option` classifies every string: the result is 2 if and only if the
token begins with "--", 1 if and only if it begins with "-" and not with "--", and
0 if and only if it does not begin with "-" (the empty string included); the result
is one of 0, 1, 2 and is at most the length of the token. -/
theorem is_option_classifies (arg : String) :
    (is_option arg = 2 ↔ "--".data <+: arg.data) ∧
    (is_option arg = 1 ↔ "-".data <+: arg.data ∧ ¬ "--".data <+: arg.data) ∧
    (is_option arg = 0 ↔ ¬ "-".data <+: arg.data) ∧
    (is_option arg = 0 ∨ is_option arg = 1 ∨ is_option arg = 2) ∧
    is_option arg ≤ arg.length ∧
    is_option "" = 0 := by
  have hd2 : "--".data = ['-', '-'] := rfl
  have hd1 : "-".data = ['-'] := rfl
  rw [hd2, hd1, ← take_two_iff, ← take_one_iff]
  have h21 : arg.data.take 2 = ['-', '-'] → arg.data.take 1 = ['-'] := by
    intro h
    rw [take_two_iff] at h
    obtain ⟨r, hr⟩ := h
    rw [← hr]; rfl
  have hlen2 : arg.data.take 2 = ['-', '-'] → 2 ≤ arg.length := by
    intro h
    have := congrArg List.length h
    simp only [List.length_take, List.length_cons, List.length_nil] at this
    show 2 ≤ arg.data.length
    omega
  have hlen1 : arg.data.take 1 = ['-'] → 1 ≤ arg.length := by
    intro h
    have := congrArg List.length h
    simp only [List.length_take, List.length_cons, List.length_nil] at this
    show 1 ≤ arg.data.length
    omega
  rcases is_option_cases arg with ⟨h2, hv⟩ | ⟨h2, h1, hv⟩ | ⟨h1, hv⟩
  · rw [hv]
    refine ⟨by simp [h2], by simp [h2], by simp [h21 h2], by simp, hlen2 h2, by decide⟩
  · rw [hv]
    refine ⟨by simp [h2], by simp [h2, h1], by simp [h1], by simp, hlen1 h1, by decide⟩
  · rw [hv]
    have h2 : arg.data.take 2 ≠ ['-', '-'] := fun h => h1 (h21 h)
    refine ⟨by simp [h2], by simp [h1], by simp [h1], by simp, Nat.zero_le _, by decide⟩

/-- C17. For every registry whose descriptors all carry one of the four arity
constraints NONE, EXACT, UP_TO, UNLIMITED and every argument vector, the error list
of a run of parse that returns has no INVALID_VALUE_CONSTRAINT error; such an error
is only pushed for a descriptor with another arity value. -/
theorem no_invalid_value_constraint (options : opt_map) (argv : List String)
    (options' : opt_map) (res : result) (h : parse options argv = some (options', res)) :
    (closed_constraints options →
      ∀ err ∈ res.errors, err.kind ≠ requirement_error.invalid_value_constraint_error) ∧
    (∀ err ∈ res.errors, err.kind = requirement_error.invalid_value_constraint_error →
      ∃ tag, err.opt.constraint = value_constraint.unrecognized tag) := by
  have key : ∀ err ∈ res.errors,
      err.kind = requirement_error.invalid_value_constraint_error →
      err.opt ∈ keys options ∧ ∃ tag, err.opt.constraint = value_constraint.unrecognized tag := by
    intro err herr hk
    obtain ⟨_, h2⟩ := parse_some_closed options argv options' res h
    rw [h2, List.mem_append] at herr
    rcases herr with herr | herr
    · obtain ⟨l, hl, hin⟩ := List.mem_flatten.mp herr
      obtain ⟨e, he, rfl⟩ := List.mem_map.mp hl
      have hopt := phase_one_errors_opt e.first argv err hin
      refine ⟨by rw [hopt]; exact List.mem_map.mpr ⟨e, he, rfl⟩, ?_⟩
      unfold phase_one_errors at hin
      rw [List.mem_append] at hin
      rcases hin with hin | hin
      · unfold names_error at hin
        split at hin
        · rw [List.mem_singleton] at hin; subst hin; exact absurd hk (by simp)
        · exact absurd hin (List.not_mem_nil _)
      · split at hin
        · exact absurd hin (List.not_mem_nil _)
        · rw [hopt]
          exact value_error_invalid e.first _ err hin hk
    · unfold not_found_errors at herr
      obtain ⟨v, _, rfl⟩ := List.mem_map.mp herr
      exact absurd hk (by simp)
  constructor
  · intro hclosed err herr hk
    obtain ⟨hin, tag, htag⟩ := key err herr hk
    obtain ⟨e, he, hed⟩ := List.mem_map.mp hin
    rw [← hed] at htag
    rcases hclosed e he with hc | hc | hc | hc <;> rw [hc] at htag <;>
      exact absurd htag (by simp)
  · intro err herr hk
    exact (key err herr hk).2

/-- Witness for `no_invalid_value_constraint`: a registry with the constraints
UNLIMITED and EXACT; and, for contrast, a descriptor with an arity value outside
the enumeration, for which the error is pushed. -/
theorem no_invalid_value_constraint_witness :
    closed_constraints (parser_of name_order [file_option, out_option]) ∧
    parse (parser_of name_order [file_option, out_option]) ["prog", "--out", "-v"] =
      some ([⟨out_option, [], true⟩, ⟨file_option, [], false⟩],
        ⟨[⟨out_option, requirement_error.not_enough_values_error⟩,
          ⟨file_option, requirement_error.option_not_found_error⟩]⟩) ∧
    (∀ err ∈ [(⟨out_option, requirement_error.not_enough_values_error⟩ : error),
        ⟨file_option, requirement_error.option_not_found_error⟩],
      err.kind ≠ requirement_error.invalid_value_constraint_error) ∧
    parse (parser_of name_order [odd_option]) ["prog", "-x"] =
      some ([⟨odd_option, [], true⟩],
        ⟨[⟨odd_option, requirement_error.invalid_value_constraint_error⟩]⟩) :=
  ⟨by decide, by decide,
    (no_invalid_value_constraint (parser_of name_order [file_option, out_option])
      ["prog", "--out", "-v"] [⟨out_option, [], true⟩, ⟨file_option, [], false⟩]
      ⟨[⟨out_option, requirement_error.not_enough_values_error⟩,
        ⟨file_option, requirement_error.option_not_found_error⟩]⟩ (by decide)).1 (by decide),
    by decide⟩

/-- C18. EXACT(2) with one token after the option (argc = 3): the first round of
`read` reads `argv[2]`, the second round asks for `argv[3]`, which is `argv[argc]`
and not an element of the argument vector; the loop does not stop at the end, so
`read` and with it parse have no result.  With a second value present the same
descriptor is read in bounds. -/
theorem read_past_end (lt : option → option → Bool) :
    (["prog", "--pair", "a"] : List String).length = 3 ∧
    read_loop 1 2 ["prog", "--pair", "a"] 2 [] = read_loop 1 2 ["prog", "--pair", "a"] 1 ["a"] ∧
    (["prog", "--pair", "a"] : List String)[(2 - 1) + 1 + 1]? = none ∧
    read_loop 1 2 ["prog", "--pair", "a"] 1 ["a"] = none ∧
    read 1 2 ["prog", "--pair", "a"] [] = none ∧
    parse (parser_of lt [pair_option]) ["prog", "--pair", "a"] = none ∧
    parse (parser_of lt [pair_option]) ["prog", "--pair", "a", "b"] =
      some ([⟨pair_option, ["a", "b"], true⟩], ⟨[]⟩) :=
  ⟨rfl, rfl, rfl, rfl, rfl, rfl, rfl⟩

/-- C19. Starting from the empty registry, after any sequence of add_option calls
(accepted or refused) and parse calls that return, no two registered descriptors
have a name in common, whatever the key order of the map is; so for every name at
most one entry of the registry has a descriptor that knows the name, and has_option
and values_from_option of the name are answered by that entry. -/
theorem registry_names_unique (lt : option → option → Bool) (calls : List call)
    (options : opt_map) (h : run_calls lt [] calls = some options) :
    names_disjoint options ∧
    (∀ (name : String) (e1 e2 : entry), e1 ∈ options → e2 ∈ options →
      e1.first.is_name_known name = true → e2.first.is_name_known name = true → e1 = e2) := by
  have hdis : names_disjoint options :=
    run_calls_names_disjoint lt calls [] options (by simp [names_disjoint, keys]) h
  refine ⟨hdis, ?_⟩
  intro name e1 e2 h1 h2 k1 k2
  have n1 : name = e1.first.short_name ∨ name = e1.first.long_name := by
    simpa [option.is_name_known] using k1
  have n2 : name = e2.first.short_name ∨ name = e2.first.long_name := by
    simpa [option.is_name_known] using k2
  have hshare : shares_name e1.first e2.first := by
    unfold shares_name
    rcases n1 with a | a <;> rcases n2 with b | b
    · exact Or.inl (a.symm.trans b)
    · exact Or.inr (Or.inl (a.symm.trans b))
    · exact Or.inr (Or.inr (Or.inl (a.symm.trans b)))
    · exact Or.inr (Or.inr (Or.inr (a.symm.trans b)))
  have hkeys : e1.first = e2.first :=
    names_disjoint_eq options hdis e1.first e2.first
      (List.mem_map.mpr ⟨e1, h1, rfl⟩) (List.mem_map.mpr ⟨e2, h2, rfl⟩) hshare
  exact List.inj_on_of_nodup_map (names_disjoint_nodup options hdis) h1 h2 hkeys

/-- Witness for `registry_names_unique`: four registrations, two of them refused
("out" shares the empty short name with "verbose", "f" shares its short name with
"f"/"file"), with a parse call in between. -/
theorem registry_names_unique_witness :
    run_calls name_order []
        [call.add_option verbose_option, call.add_option out_option,
          call.parse ["prog", "--verbose"], call.add_option file_option,
          call.add_option f_option] =
      some [⟨verbose_option, [], true⟩, ⟨file_option, [], false⟩] ∧
    names_disjoint [⟨verbose_option, [], true⟩, ⟨file_option, [], false⟩] :=
  ⟨by decide,
    (registry_names_unique name_order
      [call.add_option verbose_option, call.add_option out_option,
        call.parse ["prog", "--verbose"], call.add_option file_option,
        call.add_option f_option]
      [⟨verbose_option, [], true⟩, ⟨file_option, [], false⟩] (by decide)).1⟩

/-- C20. Starting from the empty registry, after any sequence of add_option calls
and parse calls that return, every string in every value list is a token of the
argument vector of one of the parse calls, at an index from 2 on, for which
`is_option` is 0; so no collected value begins with "-". -/
theorem collected_values_invariant (lt : option → option → Bool) (calls : List call)
    (options : opt_map) (h : run_calls lt [] calls = some options) :
    ∀ e ∈ options, ∀ v ∈ e.values,
      is_option v = 0 ∧ ¬ "-".data <+: v.data ∧
      ∃ argv, call.parse argv ∈ calls ∧ ∃ i, 2 ≤ i ∧ argv[i]? = some v := by
  intro e he v hv
  have hq := run_calls_values lt calls [] [] options
    (fun x hx => absurd hx (List.not_mem_nil _)) h e he v hv
  rw [List.nil_append] at hq
  obtain ⟨h0, hex⟩ := hq
  refine ⟨h0, ?_, hex⟩
  have hd1 : "-".data = ['-'] := rfl
  rw [hd1, ← take_one_iff]
  rcases is_option_cases v with ⟨_, hv2⟩ | ⟨_, _, hv1⟩ | ⟨h1, _⟩
  · rw [h0] at hv2; exact absurd hv2 (by decide)
  · rw [h0] at hv1; exact absurd hv1 (by decide)
  · exact h1

/-- Witness for `collected_values_invariant`: two parse calls; the token `-5` after
`-f a` is taken for an option marker and is not stored. -/
theorem collected_values_invariant_witness :
    run_calls name_order []
        [call.add_option file_option, call.parse ["prog", "-f", "a", "-5", "b"],
          call.parse ["prog", "x", "--file", "c"]] =
      some [⟨file_option, ["a", "c"], true⟩] ∧
    ∀ e ∈ [(⟨file_option, ["a", "c"], true⟩ : entry)], ∀ v ∈ e.values,
      is_option v = 0 ∧ ¬ "-".data <+: v.data ∧
      ∃ argv, call.parse argv ∈
          [call.add_option file_option, call.parse ["prog", "-f", "a", "-5", "b"],
            call.parse ["prog", "x", "--file", "c"]] ∧
        ∃ i, 2 ≤ i ∧ argv[i]? = some v :=
  ⟨by decide,
    collected_values_invariant name_order
      [call.add_option file_option, call.parse ["prog", "-f", "a", "-5", "b"],
        call.parse ["prog", "x", "--file", "c"]]
      [⟨file_option, ["a", "c"], true⟩] (by decide)⟩

end loot.clp
